import Mathlib

/-!
# Sequence alignment by dynamic programming (`Levenshtein`, `Levenshtein3D`)

A shallow embedding of the two aligners of the repository,
`src/Levenshtein.cpp` (two sequences) and `src/Levenshtein3D.cpp` (three
sequences), and theorems about them.

Modelling conventions.

* `std::vector<X>` is `List X`; `push_back` appends at the end, `resize`
  truncates or pads, `std::reverse` is `List.reverse`.
* A pointer/length pair `(T* v, size_t len)` is a `List α` with
  `len = v.length`; `==` on `T` is decidable equality on `α`.
* C++ `int` is `Int` (or `Nat` where the code only ever holds a
  non-negative value). The arithmetic is unbounded: every value the code
  computes is at most `len1 + len2 (+ len3)`, which is assumed to fit an `int`.
* An access outside a vector or array, a failed `assert` and running out of
  fuel are all the failure `none`: the functions return `Option`. Inside
  `recurse` every assignment goes to the cell that the same call has already
  read, so it cannot leave the table; it is the total `writeCell`.
* The memoised recursion `recurse` threads the table `m` explicitly and
  takes a fuel argument that bounds the recursion depth; `ComputeMinEdit`
  supplies `len1 + len2 (+ len3) + 1`, one more than the number of steps
  from the full-length cell down to the origin.
* Table cells are read with `List.get?` and the concrete scenarios are
  evaluated in the kernel.
-/

/-- Model of `std::vector::resize(n, v)`: keep the first `n` elements, pad with copies of `v`. -/
def vectorResize {α : Type} (xs : List α) (n : Nat) (v : α) : List α :=
  xs.take n ++ List.replicate (n - xs.length) v

/-- Subscript with a C++ `int` index; a negative or too large index is a failure. -/
def intIndex {α : Type} (xs : List α) (i : Int) : Option α :=
  if i < 0 then none else xs.get? i.toNat

/-- The assignment `xs[n] = f(xs[n])` inside a vector that has an element `n`;
a vector without it is left as it is. -/
def modifyAt {α : Type} (f : α → α) : List α → Nat → List α
  | [], _ => []
  | a :: as, 0 => f a :: as
  | a :: as, n + 1 => a :: modifyAt f as n

namespace Levenshtein

/-- The cell type `struct Tuple { int distance, trace; }`. -/
structure Tuple where
  distance : Int
  trace : Int
deriving DecidableEq, Repr

/-- The default constructor `Tuple() : distance(-1), trace(-1)`. -/
def Tuple.default : Tuple := ⟨-1, -1⟩

/-- The table type `typedef std::vector<std::vector<Tuple> > Matrix`. -/
abbrev Matrix := List (List Tuple)

/-- Read `m[i][j]`. -/
def getCell (m : Matrix) (i j : Nat) : Option Tuple :=
  match m.get? i with
  | none => none
  | some row => row.get? j

/-- Write through `m[i][j]`: the cell becomes `f` of its old value. -/
def modifyCell (m : Matrix) (i j : Nat) (f : Tuple → Tuple) : Option Matrix :=
  match m.get? i with
  | none => none
  | some row =>
    match row.get? j with
    | none => none
    | some t => some (m.set i (row.set j (f t)))

/-- Write through `m[i][j]`, a cell that has been read before: the cell becomes
`f` of its old value. -/
def writeCell (m : Matrix) (i j : Nat) (f : Tuple → Tuple) : Matrix :=
  modifyAt (fun row => modifyAt f row j) m i

/-- The helper `int min(int a, int b) { return a < b ? a : b; }`. -/
def min (a b : Int) : Int := if a < b then a else b

/-- The helper `int min(int a, int b, int c) { return min(a, min(b, c)); }`. -/
def min3 (a b c : Int) : Int := min a (min b c)

/-- The method `Levenshtein::recurse(i, j, v1, v2)` with the table `m` threaded through.
The first argument is fuel. -/
def recurse {α : Type} [DecidableEq α] (v1 v2 : List α) :
    Nat → Nat → Nat → Matrix → Option (Int × Matrix)
  | 0, _, _, _ => none
  | fuel + 1, i, j, m =>
    if i = 0 then some ((j : Int), m)
    else if j = 0 then some ((i : Int), m)
    else
      match getCell m i j with
      | none => none
      | some c =>
        if c.distance ≠ -1 then some (c.distance, m)
        else
          match recurse v1 v2 fuel (i - 1) j m with
          | none => none
          | some (r1, m1) =>
            match recurse v1 v2 fuel i (j - 1) m1 with
            | none => none
            | some (r2, m2) =>
              match recurse v1 v2 fuel (i - 1) (j - 1) m2 with
              | none => none
              | some (r3, m3) =>
                match v1.get? (i - 1), v2.get? (j - 1) with
                | some a, some b =>
                  let d1 := r1 + 1
                  let d2 := r2 + 1
                  let d3 := r3 + (if a = b then 0 else 2)
                  let dMin := min3 d1 d2 d3
                  let trace : Int := if dMin = d3 then 3 else if dMin = d1 then 1 else 2
                  let m4 := writeCell m3 i j (fun t => { t with distance := dMin })
                  let m5 := writeCell m4 i j (fun t => { t with trace := trace })
                  some (dMin, m5)
                | _, _ => none

/-- The loop `for (i = 0; i <= len; ++i) m[i][0].trace = 1`. -/
def initColumn (len : Nat) (m : Matrix) : Option Matrix :=
  (List.range (len + 1)).foldlM (fun m i => modifyCell m i 0 (fun t => { t with trace := 1 })) m

/-- The loop `for (j = 0; j <= len; ++j) m[0][j].trace = 2`. -/
def initRow (len : Nat) (m : Matrix) : Option Matrix :=
  (List.range (len + 1)).foldlM (fun m j => modifyCell m 0 j (fun t => { t with trace := 2 })) m

/-- The back trace loop `while (i + j > 0) { ... }` of `ComputeMinEdit`; the
first argument is fuel, `a1` and `a2` are `align1` and `align2`. An
unrecognised trace code is `assert(false)`. -/
def backtrace (m : Matrix) : Nat → Int → Int → List Int → List Int → Option (List Int × List Int)
  | 0, i, j, a1, a2 => if i + j > 0 then none else some (a1, a2)
  | fuel + 1, i, j, a1, a2 =>
    if i + j > 0 then
      match intIndex m i with
      | none => none
      | some row =>
        match intIndex row j with
        | none => none
        | some c =>
          if c.trace = 1 then backtrace m fuel (i - 1) j (a1 ++ [i - 1]) (a2 ++ [-1])
          else if c.trace = 2 then backtrace m fuel i (j - 1) (a1 ++ [-1]) (a2 ++ [j - 1])
          else if c.trace = 3 then backtrace m fuel (i - 1) (j - 1) (a1 ++ [i - 1]) (a2 ++ [j - 1])
          else none
    else some (a1, a2)

end Levenshtein

/-- The state of a `class Levenshtein` instance: the public `align1`, `align2` and the protected table `m`. -/
structure Levenshtein where
  align1 : List Int
  align2 : List Int
  m : Levenshtein.Matrix
deriving DecidableEq, Repr

namespace Levenshtein

/-- A freshly constructed instance: all three vectors empty. -/
def fresh : Levenshtein := ⟨[], [], []⟩

/-- The table as `ComputeMinEdit` prepares it before calling `recurse`:
resized to `(len1 + 1) × (len2 + 1)`, then the boundary traces written. -/
def prepare (self : Levenshtein) (len1 len2 : Nat) : Option Matrix :=
  let v : List Tuple := vectorResize [] (len2 + 1) Tuple.default
  let m := vectorResize self.m (len1 + 1) v
  match initColumn len1 m with
  | none => none
  | some m1 => initRow len2 m1

/-- The method `Levenshtein::ComputeMinEdit(v1, len1, v2, len2)`: the instance after the call. -/
def ComputeMinEdit {α : Type} [DecidableEq α] (self : Levenshtein) (v1 v2 : List α) :
    Option Levenshtein :=
  let len1 := v1.length
  let len2 := v2.length
  match prepare self len1 len2 with
  | none => none
  | some m2 =>
    match recurse v1 v2 (len1 + len2 + 1) len1 len2 m2 with
    | none => none
    | some (_, m3) =>
      match backtrace m3 (len1 + len2) (len1 : Int) (len2 : Int) self.align1 self.align2 with
      | none => none
      | some (a1, a2) => some ⟨a1.reverse, a2.reverse, m3⟩

end Levenshtein

/-- The state of a `class Levenshtein3D` instance: the public `align1`, `align2`, `align3` and the protected table `m`. -/
structure Levenshtein3D where
  align1 : List Int
  align2 : List Int
  align3 : List Int
  m : List (List (List Levenshtein.Tuple))
deriving DecidableEq, Repr

namespace Levenshtein3D

/-- The cell type `struct Tuple { int distance, trace; }`, the same declaration as in `Levenshtein`. -/
abbrev Tuple := Levenshtein.Tuple

/-- The row type `typedef std::vector<Tuple> Array1D`. -/
abbrev Array1D := List Tuple

/-- The plane type `typedef std::vector<Array1D> Array2D`. -/
abbrev Array2D := List Array1D

/-- The table type `typedef std::vector<Array2D> Array3D`. -/
abbrev Array3D := List Array2D

/-- Read `m[i][j][k]`. -/
def getCell (m : Array3D) (i j k : Nat) : Option Tuple :=
  match m.get? i with
  | none => none
  | some a2 =>
    match a2.get? j with
    | none => none
    | some a1 => a1.get? k

/-- Write through `m[i][j][k]`: the cell becomes `f` of its old value. -/
def modifyCell (m : Array3D) (i j k : Nat) (f : Tuple → Tuple) : Option Array3D :=
  match m.get? i with
  | none => none
  | some a2 =>
    match a2.get? j with
    | none => none
    | some a1 =>
      match a1.get? k with
      | none => none
      | some t => some (m.set i (a2.set j (a1.set k (f t))))

/-- Write through `m[i][j][k]`, a cell that has been read before: the cell
becomes `f` of its old value. -/
def writeCell (m : Array3D) (i j k : Nat) (f : Tuple → Tuple) : Array3D :=
  modifyAt (fun a2 => modifyAt (fun a1 => modifyAt f a1 k) a2 j) m i

/-- The helper `int min(int a, int b) { return a < b ? a : b; }`. -/
def min (a b : Int) : Int := if a < b then a else b

/-- The helper `int min(int a, int b, int c) { return min(a, min(b, c)); }`. -/
def min3 (a b c : Int) : Int := min a (min b c)

/-- The constant `INT_MAX` of `<limits.h>` for a 32-bit `int`. -/
def INT_MAX : Int := 2147483647

/-- One iteration of the scan `if (dVals[it] <= dMin) { dMin = dVals[it]; m[i][j][k].trace = it; }`;
the state is `(dMin, m)`. -/
def scanStep (i j k : Nat) (st : Int × Array3D) (it : Nat) (d : Int) : Int × Array3D :=
  if d ≤ st.1 then (d, writeCell st.2 i j k (fun t => { t with trace := (it : Int) }))
  else st

/-- The scan `for (it = 0; it < 7; ++it)` over `dVals`, from index `it` on. -/
def scan (i j k : Nat) : Nat → List Int → Int × Array3D → Int × Array3D
  | _, [], st => st
  | it, d :: ds, st => scan i j k (it + 1) ds (scanStep i j k st it d)

/-- The method `Levenshtein3D::recurse(i, j, k, v1, v2, v3)` with the table `m` threaded
through. The first argument is fuel. -/
def recurse {α : Type} [DecidableEq α] (v1 v2 v3 : List α) :
    Nat → Nat → Nat → Nat → Array3D → Option (Int × Array3D)
  | 0, _, _, _, _ => none
  | fuel + 1, i, j, k, m =>
    match getCell m i j k with
    | none => none
    | some c =>
      if c.distance ≠ -1 then some (c.distance, m)
      else if min3 i j k = 0 then
        let d0 : Int := -1
        let d1 : Int := if i = 0 then (j : Int) + k else d0
        let d2 : Int := if j = 0 then (i : Int) + k else d1
        let d : Int := if k = 0 then (i : Int) + j else d2
        some (d, writeCell m i j k (fun t => { t with distance := d }))
      else
        match v1.get? (i - 1), v2.get? (j - 1), v3.get? (k - 1) with
        | some x1, some x2, some x3 =>
          let bij : Bool := decide (x1 = x2)
          let bik : Bool := decide (x1 = x3)
          let bjk : Bool := decide (x2 = x3)
          match recurse v1 v2 v3 fuel (i - 1) j k m with
          | none => none
          | some (r0, m0) =>
          match recurse v1 v2 v3 fuel i (j - 1) k m0 with
          | none => none
          | some (r1, m1) =>
          match recurse v1 v2 v3 fuel i j (k - 1) m1 with
          | none => none
          | some (r2, m2) =>
          match recurse v1 v2 v3 fuel (i - 1) (j - 1) k m2 with
          | none => none
          | some (r3, m3) =>
          match recurse v1 v2 v3 fuel (i - 1) j (k - 1) m3 with
          | none => none
          | some (r4, m4) =>
          match recurse v1 v2 v3 fuel i (j - 1) (k - 1) m4 with
          | none => none
          | some (r5, m5) =>
          match recurse v1 v2 v3 fuel (i - 1) (j - 1) (k - 1) m5 with
          | none => none
          | some (r6, m6) =>
            let dVals : List Int :=
              [r0 + 1, r1 + 1, r2 + 1,
               r3 + (if bij then 0 else 2),
               r4 + (if bik then 0 else 2),
               r5 + (if bjk then 0 else 2),
               r6 + (if bij && bjk then 0 else 4)]
            match scan i j k 0 dVals (INT_MAX, m6) with
            | (dMin, m7) =>
              some (dMin, writeCell m7 i j k (fun t => { t with distance := dMin }))
        | _, _, _ => none

/-- The loop `for (i = 0; i <= len; ++i) m[i][0][0].trace = 0`. -/
def initAxis1 (len : Nat) (m : Array3D) : Option Array3D :=
  (List.range (len + 1)).foldlM
    (fun m i => modifyCell m i 0 0 (fun t => { t with trace := 0 })) m

/-- The loop `for (j = 0; j <= len; ++j) m[0][j][0].trace = 1`. -/
def initAxis2 (len : Nat) (m : Array3D) : Option Array3D :=
  (List.range (len + 1)).foldlM
    (fun m j => modifyCell m 0 j 0 (fun t => { t with trace := 1 })) m

/-- The loop `for (k = 0; k <= len; ++k) m[0][0][k].trace = 2`. -/
def initAxis3 (len : Nat) (m : Array3D) : Option Array3D :=
  (List.range (len + 1)).foldlM
    (fun m k => modifyCell m 0 0 k (fun t => { t with trace := 2 })) m

/-- The table `static const int step[7][3]`. -/
def step : List (List Int) :=
  [[1, 0, 0], [0, 1, 0], [0, 0, 1], [1, 1, 0], [1, 0, 1], [0, 1, 1], [1, 1, 1]]

/-- Read `step[t][c]`. -/
def stepAt (t : Int) (c : Nat) : Option Int :=
  match intIndex step t with
  | none => none
  | some row => row.get? c

/-- The back trace loop `while (i + j + k > 0) { ... }` of `ComputeMinEdit`;
the first argument is fuel, `a1`, `a2`, `a3` are `align1`, `align2`, `align3`. -/
def backtrace (m : Array3D) :
    Nat → Int → Int → Int → List Int → List Int → List Int →
      Option (List Int × List Int × List Int)
  | 0, i, j, k, a1, a2, a3 => if i + j + k > 0 then none else some (a1, a2, a3)
  | fuel + 1, i, j, k, a1, a2, a3 =>
    if i + j + k > 0 then
      match intIndex m i with
      | none => none
      | some p2 =>
      match intIndex p2 j with
      | none => none
      | some p1 =>
      match intIndex p1 k with
      | none => none
      | some c =>
        let t := c.trace
        let idx : List Int := [-1, i - 1, j - 1, k - 1]
        match stepAt t 0, stepAt t 1, stepAt t 2 with
        | some s0, some s1, some s2 =>
          match intIndex idx (s0 * 1), intIndex idx (s1 * 2), intIndex idx (s2 * 3) with
          | some x1, some x2, some x3 =>
            backtrace m fuel (i - s0) (j - s1) (k - s2) (a1 ++ [x1]) (a2 ++ [x2]) (a3 ++ [x3])
          | _, _, _ => none
        | _, _, _ => none
    else some (a1, a2, a3)

/-- A freshly constructed instance: all four vectors empty. -/
def fresh : Levenshtein3D := ⟨[], [], [], []⟩

/-- The table as `ComputeMinEdit` prepares it before calling `recurse`:
resized to `(len1 + 1) × (len2 + 1) × (len3 + 1)`, then the traces of the
three axes written. -/
def prepare (self : Levenshtein3D) (len1 len2 len3 : Nat) : Option Array3D :=
  let a1 : Array1D := vectorResize [] (len3 + 1) Levenshtein.Tuple.default
  let a2 : Array2D := vectorResize [] (len2 + 1) a1
  let m := vectorResize self.m (len1 + 1) a2
  match initAxis1 len1 m with
  | none => none
  | some m1 =>
    match initAxis2 len2 m1 with
    | none => none
    | some m2 => initAxis3 len3 m2

/-- The method `Levenshtein3D::ComputeMinEdit(v1, len1, v2, len2, v3, len3)`: the instance after the call. -/
def ComputeMinEdit {α : Type} [DecidableEq α] (self : Levenshtein3D) (v1 v2 v3 : List α) :
    Option Levenshtein3D :=
  let len1 := v1.length
  let len2 := v2.length
  let len3 := v3.length
  match prepare self len1 len2 len3 with
  | none => none
  | some m3 =>
    match recurse v1 v2 v3 (len1 + len2 + len3 + 1) len1 len2 len3 m3 with
    | none => none
    | some (_, m4) =>
      match backtrace m4 (len1 + len2 + len3) (len1 : Int) (len2 : Int) (len3 : Int)
          self.align1 self.align2 self.align3 with
      | none => none
      | some (a1, a2, a3) => some ⟨a1.reverse, a2.reverse, a3.reverse, m4⟩

end Levenshtein3D

/-! ## Reference definitions used to state and prove the properties -/

namespace Levenshtein

/-- The recurrence that `recurse` evaluates, without the memo table: the
value `recurse(i, j)` of the source recursion. -/
def lev {α : Type} [DecidableEq α] (v1 v2 : List α) : Nat → Nat → Int
  | 0, j => (j : Int)
  | i + 1, 0 => ((i + 1 : Nat) : Int)
  | i + 1, j + 1 =>
    min3 (lev v1 v2 i (j + 1) + 1) (lev v1 v2 (i + 1) j + 1)
      (lev v1 v2 i j + (if v1[i]? = v2[j]? then 0 else 2))
termination_by i j => i + j

/-- The trace code that `recurse` records at an inner cell `(i, j)`. -/
def levTrace {α : Type} [DecidableEq α] (v1 v2 : List α) (i j : Nat) : Int :=
  let d1 := lev v1 v2 (i - 1) j + 1
  let d3 := lev v1 v2 (i - 1) (j - 1) + (if v1[i - 1]? = v2[j - 1]? then 0 else 2)
  let dMin := lev v1 v2 i j
  if dMin = d3 then 3 else if dMin = d1 then 1 else 2

/-- A cell whose distance has been memoised. -/
def IsSet (m : Matrix) (i j : Nat) : Prop :=
  ∃ c, getCell m i j = some c ∧ c.distance ≠ -1

/-- Memoised cells are kept unchanged from `m` to `m1`. -/
def Mono (m m1 : Matrix) : Prop :=
  ∀ a b c, getCell m a b = some c → c.distance ≠ -1 → getCell m1 a b = some c

/-- The invariant of the table during `recurse`: it has a cell for every pair
of prefix lengths, the boundary traces are in place, every memoised inner cell
holds the value and trace of the recurrence, and the memoised inner cells are
closed under stepping to the left and up. -/
structure Inv {α : Type} [DecidableEq α] (v1 v2 : List α) (m : Matrix) : Prop where
  cell : ∀ i j, i ≤ v1.length → j ≤ v2.length → ∃ c, getCell m i j = some c
  col0 : ∀ i c, 1 ≤ i → i ≤ v1.length → getCell m i 0 = some c → c.trace = 1
  row0 : ∀ j c, 1 ≤ j → j ≤ v2.length → getCell m 0 j = some c → c.trace = 2
  memo : ∀ i j c, 1 ≤ i → 1 ≤ j → i ≤ v1.length → j ≤ v2.length → getCell m i j = some c →
    c.distance ≠ -1 → c.distance = lev v1 v2 i j ∧ c.trace = levTrace v1 v2 i j
  down1 : ∀ i j, 2 ≤ i → 1 ≤ j → i ≤ v1.length → j ≤ v2.length → IsSet m i j → IsSet m (i - 1) j
  down2 : ∀ i j, 1 ≤ i → 2 ≤ j → i ≤ v1.length → j ≤ v2.length → IsSet m i j → IsSet m i (j - 1)

/-- The cost of one output column `(align1[p], align2[p])`: 1 when one side is
the gap `-1`, else 0 when the two elements paired are equal and 2 when they differ. -/
def columnCost {α : Type} [DecidableEq α] (v1 v2 : List α) (x y : Int) : Int :=
  if x = -1 ∨ y = -1 then 1
  else if intIndex v1 x = intIndex v2 y then 0 else 2

/-- The total cost of the columns `(align1[p], align2[p])`. -/
def alignmentCost {α : Type} [DecidableEq α] (v1 v2 : List α) (a1 a2 : List Int) : Int :=
  (List.zipWith (columnCost v1 v2) a1 a2).sum

/-- What the back trace emits from the cell `(a, b)`, in emission order (last
column first): rows of equal length, no column of two gaps, the indices of
each row descending from `a - 1` (resp. `b - 1`) to `0`, and the total cost is
the value of the recurrence at `(a, b)`. -/
structure PathOK {α : Type} [DecidableEq α] (v1 v2 : List α) (a b : Nat)
    (p1 p2 : List Int) : Prop where
  len : p1.length = p2.length
  nogap : ∀ (q : Nat) (x y : Int), p1[q]? = some x → p2[q]? = some y → x ≠ -1 ∨ y ≠ -1
  idx1 : p1.filter (fun x => decide (x ≠ -1)) = ((List.range a).map Int.ofNat).reverse
  idx2 : p2.filter (fun x => decide (x ≠ -1)) = ((List.range b).map Int.ofNat).reverse
  cost : alignmentCost v1 v2 p1 p2 = lev v1 v2 a b

/-- A column of an alignment of two sequences. -/
inductive Column where
  | delete : Column
  | insert : Column
  | align : Column
deriving DecidableEq, Repr

/-- The total cost of the alignment `cs` of `xs` with `ys`, when `cs` consumes
both sequences completely and in order: a `delete` takes the next element of
`xs` and costs 1, an `insert` takes the next element of `ys` and costs 1, an
`align` takes one of each and costs 0 when they are equal and 2 otherwise.
`none` when `cs` is not an alignment of `xs` with `ys`. -/
def alignCost {α : Type} [DecidableEq α] : List Column → List α → List α → Option Nat
  | [], [], [] => some 0
  | [], _ :: _, _ => none
  | [], [], _ :: _ => none
  | Column.delete :: _, [], _ => none
  | Column.delete :: cs, _ :: xs, ys => (alignCost cs xs ys).map (fun c => c + 1)
  | Column.insert :: _, _, [] => none
  | Column.insert :: cs, xs, _ :: ys => (alignCost cs xs ys).map (fun c => c + 1)
  | Column.align :: _, [], _ => none
  | Column.align :: _, _ :: _, [] => none
  | Column.align :: cs, x :: xs, y :: ys =>
    (alignCost cs xs ys).map (fun c => c + (if x = y then 0 else 2))

/-- The value `recurse(len1, len2)` returns when `ComputeMinEdit` calls it on a
fresh instance. -/
def distance {α : Type} [DecidableEq α] (v1 v2 : List α) : Option Int :=
  match prepare fresh v1.length v2.length with
  | none => none
  | some m0 =>
    (recurse v1 v2 (v1.length + v2.length + 1) v1.length v2.length m0).map Prod.fst

end Levenshtein

namespace Levenshtein3D

/-- The value `recurse(len1, len2, len3)` returns when `ComputeMinEdit` calls it
on a fresh instance. -/
def distance {α : Type} [DecidableEq α] (v1 v2 v3 : List α) : Option Int :=
  match prepare fresh v1.length v2.length v3.length with
  | none => none
  | some m0 =>
    (recurse v1 v2 v3 (v1.length + v2.length + v3.length + 1)
      v1.length v2.length v3.length m0).map Prod.fst

/-- The cell `(i, j, k)` of the table as `recurse(len1, len2, len3)` leaves it
when `ComputeMinEdit` calls it on a fresh instance. -/
def cellAfterRecurse {α : Type} [DecidableEq α] (v1 v2 v3 : List α) (i j k : Nat) :
    Option Tuple :=
  match prepare fresh v1.length v2.length v3.length with
  | none => none
  | some m0 =>
    match recurse v1 v2 v3 (v1.length + v2.length + v3.length + 1)
        v1.length v2.length v3.length m0 with
    | none => none
    | some (_, m1) => getCell m1 i j k

/-- A column of an alignment of three sequences: the non-empty set of
sequences it advances. -/
inductive Column3 where
  | s1 : Column3
  | s2 : Column3
  | s3 : Column3
  | s12 : Column3
  | s13 : Column3
  | s23 : Column3
  | s123 : Column3
deriving DecidableEq, Repr

/-- The total cost of the three-way alignment `cs` of `xs`, `ys`, `zs`, when
`cs` consumes the three sequences completely and in order: a column that
advances one sequence costs 1, one that advances two costs 0 when the two
elements are equal and 2 otherwise, one that advances all three costs 0 when
the three elements are equal and 4 otherwise. `none` when `cs` is not an
alignment of the three sequences. -/
def alignCost3 {α : Type} [DecidableEq α] :
    List Column3 → List α → List α → List α → Option Nat
  | [], [], [], [] => some 0
  | Column3.s1 :: cs, _ :: xs, ys, zs => (alignCost3 cs xs ys zs).map (fun c => c + 1)
  | Column3.s2 :: cs, xs, _ :: ys, zs => (alignCost3 cs xs ys zs).map (fun c => c + 1)
  | Column3.s3 :: cs, xs, ys, _ :: zs => (alignCost3 cs xs ys zs).map (fun c => c + 1)
  | Column3.s12 :: cs, x :: xs, y :: ys, zs =>
    (alignCost3 cs xs ys zs).map (fun c => c + (if x = y then 0 else 2))
  | Column3.s13 :: cs, x :: xs, ys, z :: zs =>
    (alignCost3 cs xs ys zs).map (fun c => c + (if x = z then 0 else 2))
  | Column3.s23 :: cs, xs, y :: ys, z :: zs =>
    (alignCost3 cs xs ys zs).map (fun c => c + (if y = z then 0 else 2))
  | Column3.s123 :: cs, x :: xs, y :: ys, z :: zs =>
    (alignCost3 cs xs ys zs).map (fun c => c + (if x = y ∧ y = z then 0 else 4))
  | _, _, _, _ => none

/-- The trace code that the three boundary loops leave at the cell `(i, j, k)`
of a fresh table: 2 on the third axis (the origin included), 1 on the rest of
the second axis, 0 on the rest of the first axis, and the unset `-1` elsewhere. -/
def axisTrace (i j k : Nat) : Int :=
  if i = 0 ∧ j = 0 then 2 else if i = 0 ∧ k = 0 then 1 else if j = 0 ∧ k = 0 then 0 else -1

/-- The scan over `dVals` without the table: the state is `(dMin, trace)`. -/
def scanVal : Nat → List Int → Int × Int → Int × Int
  | _, [], st => st
  | it, d :: ds, st => scanVal (it + 1) ds (if d ≤ st.1 then (d, (it : Int)) else st)

/-- The recurrence that `recurse` evaluates, without the memo table: the
value `recurse(i, j, k)` of the source recursion. -/
def lev3 {α : Type} [DecidableEq α] (v1 v2 v3 : List α) : Nat → Nat → Nat → Int
  | 0, j, k => (j : Int) + (k : Int)
  | i + 1, 0, k => ((i + 1 : Nat) : Int) + (k : Int)
  | i + 1, j + 1, 0 => ((i + 1 : Nat) : Int) + ((j + 1 : Nat) : Int)
  | i + 1, j + 1, k + 1 =>
    (scanVal 0
      [lev3 v1 v2 v3 i (j + 1) (k + 1) + 1,
       lev3 v1 v2 v3 (i + 1) j (k + 1) + 1,
       lev3 v1 v2 v3 (i + 1) (j + 1) k + 1,
       lev3 v1 v2 v3 i j (k + 1) + (if v1[i]? = v2[j]? then 0 else 2),
       lev3 v1 v2 v3 i (j + 1) k + (if v1[i]? = v3[k]? then 0 else 2),
       lev3 v1 v2 v3 (i + 1) j k + (if v2[j]? = v3[k]? then 0 else 2),
       lev3 v1 v2 v3 i j k + (if v1[i]? = v2[j]? ∧ v2[j]? = v3[k]? then 0 else 4)]
      (INT_MAX, -1)).1
termination_by i j k => i + j + k

/-- The seven candidate costs `dVals` at an inner cell `(i, j, k)`, in the
order of the transitions 0 to 6. -/
def candidates {α : Type} [DecidableEq α] (v1 v2 v3 : List α) (i j k : Nat) : List Int :=
  [lev3 v1 v2 v3 (i - 1) j k + 1,
   lev3 v1 v2 v3 i (j - 1) k + 1,
   lev3 v1 v2 v3 i j (k - 1) + 1,
   lev3 v1 v2 v3 (i - 1) (j - 1) k + (if v1[i - 1]? = v2[j - 1]? then 0 else 2),
   lev3 v1 v2 v3 (i - 1) j (k - 1) + (if v1[i - 1]? = v3[k - 1]? then 0 else 2),
   lev3 v1 v2 v3 i (j - 1) (k - 1) + (if v2[j - 1]? = v3[k - 1]? then 0 else 2),
   lev3 v1 v2 v3 (i - 1) (j - 1) (k - 1) +
     (if v1[i - 1]? = v2[j - 1]? ∧ v2[j - 1]? = v3[k - 1]? then 0 else 4)]

/-- The trace code that `recurse` records at an inner cell `(i, j, k)`. -/
def trace3 {α : Type} [DecidableEq α] (v1 v2 v3 : List α) (i j k : Nat) : Int :=
  (scanVal 0 (candidates v1 v2 v3 i j k) (INT_MAX, -1)).2

/-- A cell whose distance has been memoised. -/
def IsSet (m : Array3D) (i j k : Nat) : Prop :=
  ∃ c, getCell m i j k = some c ∧ c.distance ≠ -1

/-- Memoised cells are kept unchanged from `m` to `m1`. -/
def Mono (m m1 : Array3D) : Prop :=
  ∀ a b c t, getCell m a b c = some t → t.distance ≠ -1 → getCell m1 a b c = some t

/-- The invariant of the table during `recurse`: it has a cell for every
triple of prefix lengths; a cell with a zero index keeps the trace of the
boundary loops and is unset or holds `i + j + k`; an inner cell is unset or
holds value and trace of the recurrence; the memoised inner cells are closed
under stepping down in one index. -/
structure Inv {α : Type} [DecidableEq α] (v1 v2 v3 : List α) (m : Array3D) : Prop where
  cell : ∀ i j k, i ≤ v1.length → j ≤ v2.length → k ≤ v3.length →
    ∃ c, getCell m i j k = some c
  outer : ∀ i j k c, i ≤ v1.length → j ≤ v2.length → k ≤ v3.length →
    (i = 0 ∨ j = 0 ∨ k = 0) → getCell m i j k = some c →
    c.trace = axisTrace i j k ∧ (c.distance = -1 ∨ c.distance = (i : Int) + (j : Int) + (k : Int))
  inner : ∀ i j k c, 1 ≤ i → 1 ≤ j → 1 ≤ k → i ≤ v1.length → j ≤ v2.length → k ≤ v3.length →
    getCell m i j k = some c →
    (c.distance = -1 ∧ c.trace = -1) ∨
      (c.distance = lev3 v1 v2 v3 i j k ∧ c.trace = trace3 v1 v2 v3 i j k)
  down : ∀ i j k, 1 ≤ i → 1 ≤ j → 1 ≤ k → i ≤ v1.length → j ≤ v2.length → k ≤ v3.length →
    IsSet m i j k →
    (2 ≤ i → IsSet m (i - 1) j k) ∧ (2 ≤ j → IsSet m i (j - 1) k) ∧ (2 ≤ k → IsSet m i j (k - 1))

/-- A row of the output in emission order: without its gaps it is the
descending list of the indices below `a`. -/
def RowOK (a : Nat) (p : List Int) : Prop :=
  p.filter (fun x => decide (x ≠ -1)) = ((List.range a).map Int.ofNat).reverse

end Levenshtein3D

/-! ## Lemmas on the cost table and the recurrence -/

theorem getElem?_modifyAt {β : Type} (f : β → β) : ∀ (l : List β) (n a : Nat),
    (modifyAt f l n)[a]? = if a = n then (l[a]?).map f else l[a]? := by
  intro l
  induction l with
  | nil => intro n a; simp [modifyAt]
  | cons x l ih =>
    intro n a
    cases n with
    | zero =>
      cases a with
      | zero => simp [modifyAt]
      | succ a => simp [modifyAt]
    | succ n =>
      cases a with
      | zero => simp [modifyAt]
      | succ a => simp [modifyAt, ih n a]

namespace Levenshtein

theorem getCell_eq (m : Matrix) (i j : Nat) :
    getCell m i j = match m[i]? with
      | none => none
      | some row => row[j]? := by
  unfold getCell
  simp only [List.get?_eq_getElem?]

theorem getCell_modifyCell {m m1 : Matrix} {i j : Nat} {f : Tuple → Tuple}
    (h : modifyCell m i j f = some m1) (a b : Nat) :
    getCell m1 a b = if a = i ∧ b = j then (getCell m i j).map f else getCell m a b := by
  unfold modifyCell at h
  simp only [List.get?_eq_getElem?] at h
  cases hrow : m[i]? with
  | none => simp [hrow] at h
  | some row =>
    cases ht : row[j]? with
    | none => simp [hrow, ht] at h
    | some t =>
      simp only [hrow, ht, Option.some.injEq] at h
      subst h
      have hi : i < m.length := by
        rcases List.getElem?_eq_some.1 hrow with ⟨h1, _⟩; exact h1
      have hj : j < row.length := by
        rcases List.getElem?_eq_some.1 ht with ⟨h1, _⟩; exact h1
      simp only [getCell_eq]
      by_cases hai : a = i
      · subst hai
        by_cases hbj : b = j
        · subst hbj
          simp [hrow, ht, hi, hj]
        · have hbj2 : ¬ j = b := fun h => hbj h.symm
          simp [hrow, hi, hbj, List.getElem?_set_ne hbj2]
      · have hai2 : ¬ i = a := fun h => hai h.symm
        simp [hai, List.getElem?_set_ne hai2]

theorem getCell_writeCell (m : Matrix) (i j : Nat) (f : Tuple → Tuple) (a b : Nat) :
    getCell (writeCell m i j f) a b =
      if a = i ∧ b = j then (getCell m i j).map f else getCell m a b := by
  simp only [getCell_eq, writeCell, getElem?_modifyAt]
  by_cases hai : a = i
  · subst hai
    cases hrow : m[a]? with
    | none => simp
    | some row =>
      by_cases hbj : b = j
      · subst hbj; simp [getElem?_modifyAt]
      · simp [getElem?_modifyAt, hbj]
  · simp [hai]

theorem modifyCell_of_getCell {m : Matrix} {i j : Nat} {c : Tuple} (f : Tuple → Tuple)
    (h : getCell m i j = some c) : ∃ m1, modifyCell m i j f = some m1 := by
  rw [getCell_eq] at h
  unfold modifyCell
  simp only [List.get?_eq_getElem?]
  cases hrow : m[i]? with
  | none => simp [hrow] at h
  | some row =>
    simp only [hrow] at h
    simp [h]

theorem min_le_left (a b : Int) : min a b ≤ a := by
  unfold min; split <;> omega

theorem min_le_right (a b : Int) : min a b ≤ b := by
  unfold min; split <;> omega

theorem min_cases (a b : Int) : min a b = a ∨ min a b = b := by
  unfold min; split <;> simp

theorem min3_le1 (a b c : Int) : min3 a b c ≤ a := min_le_left _ _

theorem min3_le2 (a b c : Int) : min3 a b c ≤ b :=
  le_trans (min_le_right _ _) (min_le_left _ _)

theorem min3_le3 (a b c : Int) : min3 a b c ≤ c :=
  le_trans (min_le_right _ _) (min_le_right _ _)

theorem min3_cases (a b c : Int) : min3 a b c = a ∨ min3 a b c = b ∨ min3 a b c = c := by
  unfold min3
  rcases min_cases a (min b c) with h | h
  · exact Or.inl h
  · rcases min_cases b c with h2 | h2
    · exact Or.inr (Or.inl (h.trans h2))
    · exact Or.inr (Or.inr (h.trans h2))

section
variable {α : Type} [DecidableEq α] (v1 v2 : List α)

theorem lev_zero_left (j : Nat) : lev v1 v2 0 j = (j : Int) := by
  rw [lev]

theorem lev_zero_right (i : Nat) : lev v1 v2 i 0 = (i : Int) := by
  cases i with
  | zero => rw [lev]
  | succ i => rw [lev]

theorem lev_succ (i j : Nat) :
    lev v1 v2 (i + 1) (j + 1) =
      min3 (lev v1 v2 i (j + 1) + 1) (lev v1 v2 (i + 1) j + 1)
        (lev v1 v2 i j + (if v1[i]? = v2[j]? then 0 else 2)) := by
  rw [lev]

theorem lev_nonneg : ∀ (n i j : Nat), i + j ≤ n → 0 ≤ lev v1 v2 i j := by
  intro n
  induction n with
  | zero =>
    intro i j h
    have hi : i = 0 := by omega
    subst hi
    rw [lev_zero_left]; omega
  | succ n ih =>
    intro i j h
    cases i with
    | zero => rw [lev_zero_left]; omega
    | succ i =>
      cases j with
      | zero => rw [lev_zero_right]; omega
      | succ j =>
        rw [lev_succ]
        have h1 := ih i (j + 1) (by omega)
        have h2 := ih (i + 1) j (by omega)
        have h3 := ih i j (by omega)
        rcases min3_cases (lev v1 v2 i (j + 1) + 1) (lev v1 v2 (i + 1) j + 1)
          (lev v1 v2 i j + (if v1[i]? = v2[j]? then 0 else 2)) with h | h | h
        · rw [h]; omega
        · rw [h]; omega
        · rw [h]; split <;> omega

theorem lev_ne_neg_one (i j : Nat) : lev v1 v2 i j ≠ -1 := by
  have := lev_nonneg v1 v2 (i + j) i j (le_refl _)
  omega

end

theorem Mono.refl (m : Matrix) : Mono m m := fun _ _ _ h _ => h

theorem Mono.trans {m m1 m2 : Matrix} (h1 : Mono m m1) (h2 : Mono m1 m2) : Mono m m2 :=
  fun a b c hc hd => h2 a b c (h1 a b c hc hd) hd

theorem Mono.isSet {m m1 : Matrix} (h : Mono m m1) {i j : Nat} (hs : IsSet m i j) :
    IsSet m1 i j := by
  rcases hs with ⟨c, hc, hd⟩
  exact ⟨c, h i j c hc hd, hd⟩

section
variable {α : Type} [DecidableEq α] (v1 v2 : List α)

/-- Writing distance and trace of the recurrence into an unset inner cell keeps the invariant. -/
theorem Inv.store {m3 : Matrix} {i j : Nat} (hinv : Inv v1 v2 m3)
    (hi : 1 ≤ i) (hj : 1 ≤ j) (hi2 : i ≤ v1.length) (hj2 : j ≤ v2.length)
    (hup : 2 ≤ i → IsSet m3 (i - 1) j) (hleft : 2 ≤ j → IsSet m3 i (j - 1))
    (m5 : Matrix)
    (h5 : m5 = writeCell (writeCell m3 i j (fun t => { t with distance := lev v1 v2 i j })) i j
      (fun t => { t with trace := levTrace v1 v2 i j })) :
    Inv v1 v2 m5 ∧ Mono m3 m5 ∧ IsSet m5 i j := by
  rcases hinv.cell i j hi2 hj2 with ⟨c3, hc3⟩
  have hget : ∀ a b, getCell m5 a b =
      if a = i ∧ b = j then some ⟨lev v1 v2 i j, levTrace v1 v2 i j⟩ else getCell m3 a b := by
    intro a b
    rw [h5, getCell_writeCell]
    by_cases hab : a = i ∧ b = j
    · rw [if_pos hab, if_pos hab, getCell_writeCell, if_pos ⟨rfl, rfl⟩]
      simp [hc3]
    · rw [if_neg hab, if_neg hab, getCell_writeCell, if_neg hab]
  have hmono : Mono m3 m5 := by
    intro a b c hc hd
    rw [hget]
    by_cases hab : a = i ∧ b = j
    · rcases hab with ⟨rfl, rfl⟩
      rcases hinv.memo a b c hi hj hi2 hj2 hc hd with ⟨e1, e2⟩
      rw [if_pos ⟨rfl, rfl⟩]
      cases c
      simp_all
    · rw [if_neg hab]; exact hc
  have hset : IsSet m5 i j :=
    ⟨⟨lev v1 v2 i j, levTrace v1 v2 i j⟩, by rw [hget, if_pos ⟨rfl, rfl⟩],
      lev_ne_neg_one v1 v2 i j⟩
  have hback : ∀ a b, ¬ (a = i ∧ b = j) → IsSet m5 a b → IsSet m3 a b := by
    intro a b hab hs
    rcases hs with ⟨c, hc, hd⟩
    rw [hget, if_neg hab] at hc
    exact ⟨c, hc, hd⟩
  refine ⟨⟨?_, ?_, ?_, ?_, ?_, ?_⟩, hmono, hset⟩
  · intro a b ha hb
    rw [hget]
    by_cases hab : a = i ∧ b = j
    · rw [if_pos hab]; exact ⟨_, rfl⟩
    · rw [if_neg hab]; exact hinv.cell a b ha hb
  · intro a c ha ha2 hc
    rw [hget, if_neg (by omega)] at hc
    exact hinv.col0 a c ha ha2 hc
  · intro b c hb hb2 hc
    rw [hget, if_neg (by omega)] at hc
    exact hinv.row0 b c hb hb2 hc
  · intro a b c ha hb ha2 hb2 hc hd
    rw [hget] at hc
    by_cases hab : a = i ∧ b = j
    · rcases hab with ⟨rfl, rfl⟩
      rw [if_pos ⟨rfl, rfl⟩] at hc
      cases hc
      exact ⟨rfl, rfl⟩
    · rw [if_neg hab] at hc
      exact hinv.memo a b c ha hb ha2 hb2 hc hd
  · intro a b ha hb ha2 hb2 hs
    by_cases hab : a = i ∧ b = j
    · rcases hab with ⟨rfl, rfl⟩
      exact hmono.isSet (hup ha)
    · exact hmono.isSet (hinv.down1 a b ha hb ha2 hb2 (hback a b hab hs))
  · intro a b ha hb ha2 hb2 hs
    by_cases hab : a = i ∧ b = j
    · rcases hab with ⟨rfl, rfl⟩
      exact hmono.isSet (hleft hb)
    · exact hmono.isSet (hinv.down2 a b ha hb ha2 hb2 (hback a b hab hs))

/-- The memoised `recurse` returns the value of the recurrence, keeps the
invariant and the memoised cells, and leaves the cell `(i, j)` memoised. -/
theorem recurse_spec : ∀ (fuel i j : Nat) (m : Matrix), Inv v1 v2 m →
    i ≤ v1.length → j ≤ v2.length → i + j < fuel →
    ∃ m1, recurse v1 v2 fuel i j m = some (lev v1 v2 i j, m1) ∧ Inv v1 v2 m1 ∧ Mono m m1 ∧
      (1 ≤ i → 1 ≤ j → IsSet m1 i j) := by
  intro fuel
  induction fuel with
  | zero => intro i j m _ _ _ h; omega
  | succ fuel ih =>
    intro i j m hinv hi2 hj2 hfuel
    unfold recurse
    by_cases hi0 : i = 0
    · subst hi0
      refine ⟨m, ?_, hinv, Mono.refl m, fun h => by omega⟩
      simp [lev_zero_left]
    by_cases hj0 : j = 0
    · subst hj0
      refine ⟨m, ?_, hinv, Mono.refl m, fun _ h => by omega⟩
      simp [hi0, lev_zero_right]
    have hi1 : 1 ≤ i := by omega
    have hj1 : 1 ≤ j := by omega
    rcases hinv.cell i j hi2 hj2 with ⟨c, hc⟩
    simp only [if_neg hi0, if_neg hj0, hc]
    by_cases hd : c.distance ≠ -1
    · rw [if_pos hd]
      refine ⟨m, ?_, hinv, Mono.refl m, fun _ _ => ⟨c, hc, hd⟩⟩
      rw [(hinv.memo i j c hi1 hj1 hi2 hj2 hc hd).1]
    · rw [if_neg hd]
      rcases ih (i - 1) j m hinv (by omega) hj2 (by omega) with ⟨m1, e1, inv1, mono1, set1⟩
      rcases ih i (j - 1) m1 inv1 hi2 (by omega) (by omega) with ⟨m2, e2, inv2, mono2, set2⟩
      rcases ih (i - 1) (j - 1) m2 inv2 (by omega) (by omega) (by omega) with
        ⟨m3, e3, inv3, mono3, _⟩
      simp only [List.get?_eq_getElem?]
      have hx : ∃ a, v1[i - 1]? = some a :=
        ⟨v1[i - 1], List.getElem?_eq_getElem (by omega)⟩
      have hy : ∃ b, v2[j - 1]? = some b :=
        ⟨v2[j - 1], List.getElem?_eq_getElem (by omega)⟩
      rcases hx with ⟨a, ha⟩
      rcases hy with ⟨b, hb⟩
      have hlev : min3 (lev v1 v2 (i - 1) j + 1) (lev v1 v2 i (j - 1) + 1)
          (lev v1 v2 (i - 1) (j - 1) + (if a = b then 0 else 2)) = lev v1 v2 i j := by
        obtain ⟨i0, rfl⟩ : ∃ i0, i = i0 + 1 := ⟨i - 1, by omega⟩
        obtain ⟨j0, rfl⟩ : ∃ j0, j = j0 + 1 := ⟨j - 1, by omega⟩
        simp only [Nat.add_sub_cancel] at ha hb ⊢
        rw [lev_succ, ha, hb]
        simp
      have htr : (if lev v1 v2 i j = lev v1 v2 (i - 1) (j - 1) + (if a = b then 0 else 2) then (3 : Int)
          else if lev v1 v2 i j = lev v1 v2 (i - 1) j + 1 then 1 else 2) = levTrace v1 v2 i j := by
        unfold levTrace
        simp [ha, hb]
      simp only [e1, e2, e3, ha, hb, hlev, htr]
      have hup : 2 ≤ i → IsSet m3 (i - 1) j := fun h =>
        mono3.isSet (mono2.isSet (set1 (by omega) hj1))
      have hleft : 2 ≤ j → IsSet m3 i (j - 1) := fun h =>
        mono3.isSet (set2 hi1 (by omega))
      rcases Inv.store v1 v2 inv3 hi1 hj1 hi2 hj2 hup hleft _ rfl with ⟨inv5, mono5, set5⟩
      exact ⟨_, rfl, inv5, (mono1.trans (mono2.trans (mono3.trans mono5))), fun _ _ => set5⟩

end

theorem initColumn_loop (m : Matrix) : ∀ (n : Nat), (∀ i, i < n → ∃ c, getCell m i 0 = some c) →
    ∃ m1, (List.range n).foldlM
        (fun m i => modifyCell m i 0 (fun t => { t with trace := 1 })) m = some m1 ∧
      ∀ a b, getCell m1 a b = if a < n ∧ b = 0
        then (getCell m a b).map (fun t => { t with trace := 1 }) else getCell m a b := by
  intro n
  induction n with
  | zero => intro _; exact ⟨m, by simp, by simp⟩
  | succ n ih =>
    intro h
    rcases ih (fun i hi => h i (by omega)) with ⟨m1, e1, g1⟩
    rcases h n (by omega) with ⟨c, hc⟩
    have hc1 : getCell m1 n 0 = some c := by rw [g1]; simp [hc]
    rcases modifyCell_of_getCell (fun t => { t with trace := 1 }) hc1 with ⟨m2, e2⟩
    refine ⟨m2, ?_, ?_⟩
    · rw [List.range_succ, List.foldlM_append, e1]
      simp [e2]
    · intro a b
      rw [getCell_modifyCell e2 a b]
      by_cases hab : a = n ∧ b = 0
      · rcases hab with ⟨rfl, rfl⟩
        simp [hc1, hc]
      · rw [if_neg hab, g1]
        by_cases hab2 : a < n ∧ b = 0
        · rw [if_pos hab2, if_pos ⟨by omega, hab2.2⟩]
        · rw [if_neg hab2, if_neg (by omega)]

theorem initRow_loop (m : Matrix) : ∀ (n : Nat), (∀ j, j < n → ∃ c, getCell m 0 j = some c) →
    ∃ m1, (List.range n).foldlM
        (fun m j => modifyCell m 0 j (fun t => { t with trace := 2 })) m = some m1 ∧
      ∀ a b, getCell m1 a b = if a = 0 ∧ b < n
        then (getCell m a b).map (fun t => { t with trace := 2 }) else getCell m a b := by
  intro n
  induction n with
  | zero => intro _; exact ⟨m, by simp, by simp⟩
  | succ n ih =>
    intro h
    rcases ih (fun i hi => h i (by omega)) with ⟨m1, e1, g1⟩
    rcases h n (by omega) with ⟨c, hc⟩
    have hc1 : getCell m1 0 n = some c := by rw [g1]; simp [hc]
    rcases modifyCell_of_getCell (fun t => { t with trace := 2 }) hc1 with ⟨m2, e2⟩
    refine ⟨m2, ?_, ?_⟩
    · rw [List.range_succ, List.foldlM_append, e1]
      simp [e2]
    · intro a b
      rw [getCell_modifyCell e2 a b]
      by_cases hab : a = 0 ∧ b = n
      · rcases hab with ⟨rfl, rfl⟩
        simp [hc1, hc]
      · rw [if_neg hab, g1]
        by_cases hab2 : a = 0 ∧ b < n
        · rw [if_pos hab2, if_pos ⟨hab2.1, by omega⟩]
        · rw [if_neg hab2, if_neg (by omega)]

theorem getCell_replicate (len1 len2 : Nat) (t : Tuple) (a b : Nat) :
    getCell (List.replicate (len1 + 1) (List.replicate (len2 + 1) t)) a b =
      if a ≤ len1 ∧ b ≤ len2 then some t else none := by
  rw [getCell_eq]
  rw [List.getElem?_replicate]
  by_cases ha : a < len1 + 1
  · rw [if_pos ha]
    simp only [List.getElem?_replicate]
    by_cases hb : b < len2 + 1
    · rw [if_pos hb, if_pos ⟨by omega, by omega⟩]
    · rw [if_neg hb, if_neg (by omega)]
  · rw [if_neg ha, if_neg (by omega)]

/-- The table of a fresh instance after the boundary loops. -/
theorem prepare_fresh (len1 len2 : Nat) :
    ∃ m0, prepare fresh len1 len2 = some m0 ∧
      ∀ a b, getCell m0 a b =
        if a ≤ len1 ∧ b ≤ len2
        then some ⟨-1, if a = 0 then 2 else if b = 0 then 1 else -1⟩ else none := by
  have hm : vectorResize fresh.m (len1 + 1) (vectorResize ([] : List Tuple) (len2 + 1) Tuple.default)
      = List.replicate (len1 + 1) (List.replicate (len2 + 1) Tuple.default) := by
    simp [vectorResize, fresh]
  rcases initColumn_loop (List.replicate (len1 + 1) (List.replicate (len2 + 1) Tuple.default))
    (len1 + 1) (fun i hi => ⟨Tuple.default, by rw [getCell_replicate]; simp; omega⟩) with
    ⟨m1, e1, g1⟩
  rcases initRow_loop m1 (len2 + 1) (fun j hj => by
    rw [g1, getCell_replicate]
    by_cases h0 : j = 0
    · subst h0; simp
    · rw [if_neg (by omega), if_pos ⟨by omega, by omega⟩]; exact ⟨_, rfl⟩) with ⟨m2, e2, g2⟩
  refine ⟨m2, ?_, ?_⟩
  · unfold prepare
    simp only [hm]
    unfold initColumn initRow
    rw [e1]
    exact e2
  · intro a b
    rw [g2, g1, getCell_replicate]
    by_cases hab : a ≤ len1 ∧ b ≤ len2
    · rcases hab with ⟨ha, hb⟩
      by_cases ha0 : a = 0
      · subst ha0
        by_cases hb0 : b = 0
        · subst hb0; simp [Tuple.default]
        · simp [hb0, hb, Nat.lt_succ_of_le hb, Tuple.default]
      · by_cases hb0 : b = 0
        · subst hb0; simp [ha0, ha, Nat.lt_succ_of_le ha, Tuple.default]
        · simp [ha0, hb0, ha, hb, Tuple.default]
    · rw [if_neg hab]
      by_cases h1 : a = 0 ∧ b < len2 + 1
      · rw [if_pos h1]
        by_cases h2 : a < len1 + 1 ∧ b = 0
        · omega
        · rw [if_neg h2, if_neg hab]; rfl
      · rw [if_neg h1]
        by_cases h2 : a < len1 + 1 ∧ b = 0
        · rw [if_pos h2, if_neg hab]; rfl
        · rw [if_neg h2, if_neg hab]

/-- The prepared table of a fresh instance satisfies the invariant. -/
theorem prepare_fresh_inv {α : Type} [DecidableEq α] (v1 v2 : List α) :
    ∃ m0, prepare fresh v1.length v2.length = some m0 ∧ Inv v1 v2 m0 := by
  rcases prepare_fresh v1.length v2.length with ⟨m0, e0, g0⟩
  have hunset : ∀ a b, ¬ IsSet m0 a b := by
    intro a b hs
    rcases hs with ⟨c, hc, hd⟩
    rw [g0] at hc
    by_cases hab : a ≤ v1.length ∧ b ≤ v2.length
    · rw [if_pos hab] at hc
      cases hc
      exact hd rfl
    · rw [if_neg hab] at hc
      cases hc
  refine ⟨m0, e0, ⟨?_, ?_, ?_, ?_, ?_, ?_⟩⟩
  · intro i j hi hj
    rw [g0, if_pos ⟨hi, hj⟩]
    exact ⟨_, rfl⟩
  · intro i c hi hi2 hc
    rw [g0, if_pos ⟨hi2, Nat.zero_le _⟩] at hc
    cases hc
    simp
    omega
  · intro j c hj hj2 hc
    rw [g0, if_pos ⟨Nat.zero_le _, hj2⟩] at hc
    cases hc
    simp
  · intro i j c _ _ _ _ hc hd
    exact absurd ⟨c, hc, hd⟩ (hunset i j)
  · intro i j _ _ _ _ hs
    exact absurd hs (hunset i j)
  · intro i j _ _ _ _ hs
    exact absurd hs (hunset i j)

end Levenshtein

theorem intIndex_natCast {β : Type} (xs : List β) (n : Nat) : intIndex xs (n : Int) = xs[n]? := by
  unfold intIndex
  have h : ¬ ((n : Int) < 0) := by omega
  rw [if_neg h, Int.toNat_ofNat, List.get?_eq_getElem?]

theorem intIndex_neg_one {β : Type} (xs : List β) : intIndex xs (-1) = none := by
  unfold intIndex
  simp

namespace Levenshtein

section
variable {α : Type} [DecidableEq α] (v1 v2 : List α)

theorem alignmentCost_cons (x y : Int) (p1 p2 : List Int) :
    alignmentCost v1 v2 (x :: p1) (y :: p2) = columnCost v1 v2 x y + alignmentCost v1 v2 p1 p2 := by
  simp [alignmentCost]

theorem range_map_reverse_succ (a : Nat) :
    ((List.range (a + 1)).map Int.ofNat).reverse =
      (a : Int) :: ((List.range a).map Int.ofNat).reverse := by
  rw [List.range_succ]
  simp

theorem PathOK.nil : PathOK v1 v2 0 0 [] [] :=
  ⟨rfl, by simp, by simp, by simp, by simp [alignmentCost, lev_zero_left]⟩

theorem PathOK.del {a b : Nat} {p1 p2 : List Int} (h : PathOK v1 v2 a b p1 p2)
    (hc : lev v1 v2 (a + 1) b = lev v1 v2 a b + 1) :
    PathOK v1 v2 (a + 1) b ((a : Int) :: p1) (-1 :: p2) := by
  have hne : ((a : Int) ≠ -1) := by omega
  refine ⟨by simp [h.len], ?_, ?_, ?_, ?_⟩
  · intro q x y hx hy
    cases q with
    | zero =>
      simp only [List.getElem?_cons_zero, Option.some.injEq] at hx
      left; omega
    | succ q =>
      simp only [List.getElem?_cons_succ] at hx hy
      exact h.nogap q x y hx hy
  · rw [range_map_reverse_succ, ← h.idx1]
    simp [hne]
  · rw [← h.idx2]
    simp
  · rw [alignmentCost_cons, h.cost, hc]
    simp [columnCost]
    omega

theorem PathOK.ins {a b : Nat} {p1 p2 : List Int} (h : PathOK v1 v2 a b p1 p2)
    (hc : lev v1 v2 a (b + 1) = lev v1 v2 a b + 1) :
    PathOK v1 v2 a (b + 1) (-1 :: p1) ((b : Int) :: p2) := by
  have hne : ((b : Int) ≠ -1) := by omega
  refine ⟨by simp [h.len], ?_, ?_, ?_, ?_⟩
  · intro q x y hx hy
    cases q with
    | zero =>
      simp only [List.getElem?_cons_zero, Option.some.injEq] at hy
      right; omega
    | succ q =>
      simp only [List.getElem?_cons_succ] at hx hy
      exact h.nogap q x y hx hy
  · rw [← h.idx1]
    simp
  · rw [range_map_reverse_succ, ← h.idx2]
    simp [hne]
  · rw [alignmentCost_cons, h.cost, hc]
    simp [columnCost]
    omega

theorem PathOK.ali {a b : Nat} {p1 p2 : List Int} (h : PathOK v1 v2 a b p1 p2)
    (hc : lev v1 v2 (a + 1) (b + 1) = lev v1 v2 a b + (if v1[a]? = v2[b]? then 0 else 2)) :
    PathOK v1 v2 (a + 1) (b + 1) ((a : Int) :: p1) ((b : Int) :: p2) := by
  have hna : ((a : Int) ≠ -1) := by omega
  have hnb : ((b : Int) ≠ -1) := by omega
  refine ⟨by simp [h.len], ?_, ?_, ?_, ?_⟩
  · intro q x y hx hy
    cases q with
    | zero =>
      simp only [List.getElem?_cons_zero, Option.some.injEq] at hx
      left; omega
    | succ q =>
      simp only [List.getElem?_cons_succ] at hx hy
      exact h.nogap q x y hx hy
  · rw [range_map_reverse_succ, ← h.idx1]
    simp [hna]
  · rw [range_map_reverse_succ, ← h.idx2]
    simp [hnb]
  · rw [alignmentCost_cons, h.cost, hc]
    have hcol : columnCost v1 v2 (a : Int) (b : Int) = if v1[a]? = v2[b]? then 0 else 2 := by
      unfold columnCost
      rw [if_neg (by omega), intIndex_natCast, intIndex_natCast]
    rw [hcol]
    omega

/-- On a table that satisfies the invariant the back trace from a memoised
(or boundary) cell succeeds with fuel `a + b` and emits a valid path. -/
theorem backtrace_spec {m : Matrix} (hinv : Inv v1 v2 m) :
    ∀ (fuel a b : Nat) (acc1 acc2 : List Int), a ≤ v1.length → b ≤ v2.length →
      (1 ≤ a → 1 ≤ b → IsSet m a b) → a + b ≤ fuel →
      ∃ p1 p2, backtrace m fuel (a : Int) (b : Int) acc1 acc2 = some (acc1 ++ p1, acc2 ++ p2) ∧
        PathOK v1 v2 a b p1 p2 := by
  intro fuel
  induction fuel with
  | zero =>
    intro a b acc1 acc2 _ _ _ hf
    have ha : a = 0 := by omega
    have hb : b = 0 := by omega
    subst ha; subst hb
    exact ⟨[], [], by simp [backtrace], PathOK.nil v1 v2⟩
  | succ fuel ih =>
    intro a b acc1 acc2 ha2 hb2 hset hf
    by_cases h0 : a + b = 0
    · have ha : a = 0 := by omega
      have hb : b = 0 := by omega
      subst ha; subst hb
      exact ⟨[], [], by simp [backtrace], PathOK.nil v1 v2⟩
    have hpos : ((a : Int) + (b : Int) > 0) := by omega
    rcases hinv.cell a b ha2 hb2 with ⟨c, hc⟩
    have hrow : ∃ row, m[a]? = some row ∧ row[b]? = some c := by
      rw [getCell_eq] at hc
      cases hr : m[a]? with
      | none => simp [hr] at hc
      | some row => exact ⟨row, rfl, by simpa [hr] using hc⟩
    rcases hrow with ⟨row, hr1, hr2⟩
    have hunf : backtrace m (fuel + 1) (a : Int) (b : Int) acc1 acc2 =
        if c.trace = 1 then backtrace m fuel ((a : Int) - 1) b (acc1 ++ [(a : Int) - 1]) (acc2 ++ [-1])
        else if c.trace = 2 then
          backtrace m fuel a ((b : Int) - 1) (acc1 ++ [-1]) (acc2 ++ [(b : Int) - 1])
        else if c.trace = 3 then
          backtrace m fuel ((a : Int) - 1) ((b : Int) - 1) (acc1 ++ [(a : Int) - 1])
            (acc2 ++ [(b : Int) - 1])
        else none := by
      rw [backtrace, if_pos hpos, intIndex_natCast, hr1]
      simp only [intIndex_natCast, hr2]
    rw [hunf]
    -- the three moves
    have mdel : ∀ a0, a = a0 + 1 → (1 ≤ a0 → 1 ≤ b → IsSet m a0 b) →
        lev v1 v2 (a0 + 1) b = lev v1 v2 a0 b + 1 →
        ∃ p1 p2, backtrace m fuel ((a : Int) - 1) b (acc1 ++ [(a : Int) - 1]) (acc2 ++ [-1])
            = some (acc1 ++ p1, acc2 ++ p2) ∧ PathOK v1 v2 a b p1 p2 := by
      intro a0 ha0 hs hl
      subst ha0
      have e : (((a0 + 1 : Nat) : Int) - 1) = (a0 : Int) := by push_cast; ring
      rw [e]
      rcases ih a0 b (acc1 ++ [(a0 : Int)]) (acc2 ++ [-1]) (by omega) hb2 hs (by omega) with
        ⟨p1, p2, e1, ok⟩
      exact ⟨(a0 : Int) :: p1, -1 :: p2, by rw [e1]; simp, ok.del v1 v2 hl⟩
    have mins : ∀ b0, b = b0 + 1 → (1 ≤ a → 1 ≤ b0 → IsSet m a b0) →
        lev v1 v2 a (b0 + 1) = lev v1 v2 a b0 + 1 →
        ∃ p1 p2, backtrace m fuel a ((b : Int) - 1) (acc1 ++ [-1]) (acc2 ++ [(b : Int) - 1])
            = some (acc1 ++ p1, acc2 ++ p2) ∧ PathOK v1 v2 a b p1 p2 := by
      intro b0 hb0 hs hl
      subst hb0
      have e : (((b0 + 1 : Nat) : Int) - 1) = (b0 : Int) := by push_cast; ring
      rw [e]
      rcases ih a b0 (acc1 ++ [-1]) (acc2 ++ [(b0 : Int)]) ha2 (by omega) hs (by omega) with
        ⟨p1, p2, e1, ok⟩
      exact ⟨-1 :: p1, (b0 : Int) :: p2, by rw [e1]; simp, ok.ins v1 v2 hl⟩
    have mali : ∀ a0 b0, a = a0 + 1 → b = b0 + 1 → (1 ≤ a0 → 1 ≤ b0 → IsSet m a0 b0) →
        lev v1 v2 (a0 + 1) (b0 + 1) = lev v1 v2 a0 b0 + (if v1[a0]? = v2[b0]? then 0 else 2) →
        ∃ p1 p2, backtrace m fuel ((a : Int) - 1) ((b : Int) - 1) (acc1 ++ [(a : Int) - 1])
            (acc2 ++ [(b : Int) - 1]) = some (acc1 ++ p1, acc2 ++ p2) ∧
          PathOK v1 v2 a b p1 p2 := by
      intro a0 b0 ha0 hb0 hs hl
      subst ha0; subst hb0
      have e : (((a0 + 1 : Nat) : Int) - 1) = (a0 : Int) := by push_cast; ring
      have e2 : (((b0 + 1 : Nat) : Int) - 1) = (b0 : Int) := by push_cast; ring
      rw [e, e2]
      rcases ih a0 b0 (acc1 ++ [(a0 : Int)]) (acc2 ++ [(b0 : Int)]) (by omega) (by omega) hs
        (by omega) with ⟨p1, p2, e1, ok⟩
      exact ⟨(a0 : Int) :: p1, (b0 : Int) :: p2, by rw [e1]; simp, ok.ali v1 v2 hl⟩
    by_cases hb0 : b = 0
    · subst hb0
      have ht := hinv.col0 a c (by omega) ha2 hc
      rw [if_pos ht]
      exact mdel (a - 1) (by omega) (fun _ h => by omega)
        (by rw [lev_zero_right, lev_zero_right]; push_cast; ring)
    by_cases ha0 : a = 0
    · subst ha0
      have ht := hinv.row0 b c (by omega) hb2 hc
      rw [if_neg (by rw [ht]; decide), if_pos ht]
      exact mins (b - 1) (by omega) (fun h _ => by omega)
        (by rw [lev_zero_left, lev_zero_left]; push_cast; ring)
    obtain ⟨a0, rfl⟩ : ∃ a0, a = a0 + 1 := ⟨a - 1, by omega⟩
    obtain ⟨b0, rfl⟩ : ∃ b0, b = b0 + 1 := ⟨b - 1, by omega⟩
    rcases hset (by omega) (by omega) with ⟨c2, hc2, hd⟩
    rw [hc] at hc2
    cases hc2
    have ht := (hinv.memo (a0 + 1) (b0 + 1) c (by omega) (by omega) ha2 hb2 hc hd).2
    have hs1 : 1 ≤ a0 → 1 ≤ b0 + 1 → IsSet m a0 (b0 + 1) := fun h _ =>
      hinv.down1 (a0 + 1) (b0 + 1) (by omega) (by omega) ha2 hb2 ⟨c, hc, hd⟩
    have hs2 : 1 ≤ a0 + 1 → 1 ≤ b0 → IsSet m (a0 + 1) b0 := fun _ h =>
      hinv.down2 (a0 + 1) (b0 + 1) (by omega) (by omega) ha2 hb2 ⟨c, hc, hd⟩
    have hs3 : 1 ≤ a0 → 1 ≤ b0 → IsSet m a0 b0 := fun h1 h2 =>
      hinv.down2 a0 (b0 + 1) h1 (by omega) (by omega) hb2 (hs1 h1 (by omega))
    unfold levTrace at ht
    simp only [Nat.add_sub_cancel] at ht
    by_cases h3 : lev v1 v2 (a0 + 1) (b0 + 1) =
        lev v1 v2 a0 b0 + (if v1[a0]? = v2[b0]? then 0 else 2)
    · rw [if_pos h3] at ht
      rw [if_neg (by rw [ht]; decide), if_neg (by rw [ht]; decide), if_pos ht]
      exact mali a0 b0 rfl rfl hs3 h3
    · rw [if_neg h3] at ht
      by_cases h1 : lev v1 v2 (a0 + 1) (b0 + 1) = lev v1 v2 a0 (b0 + 1) + 1
      · rw [if_pos h1] at ht
        rw [if_pos ht]
        exact mdel a0 rfl hs1 h1
      · rw [if_neg h1] at ht
        rw [if_neg (by rw [ht]; decide), if_pos ht]
        refine mins b0 rfl hs2 ?_
        have h := lev_succ v1 v2 a0 b0
        rcases min3_cases (lev v1 v2 a0 (b0 + 1) + 1) (lev v1 v2 (a0 + 1) b0 + 1)
          (lev v1 v2 a0 b0 + (if v1[a0]? = v2[b0]? then 0 else 2)) with h5 | h5 | h5
        · exact absurd (h.trans h5) h1
        · exact h.trans h5
        · exact absurd (h.trans h5) h3

end

section
variable {α : Type} [DecidableEq α] (v1 v2 : List α)

theorem lev_step_delete (i j : Nat) : lev v1 v2 (i + 1) j ≤ lev v1 v2 i j + 1 := by
  cases j with
  | zero => rw [lev_zero_right, lev_zero_right]; push_cast; omega
  | succ j => rw [lev_succ]; exact min3_le1 _ _ _

theorem lev_step_insert (i j : Nat) : lev v1 v2 i (j + 1) ≤ lev v1 v2 i j + 1 := by
  cases i with
  | zero => rw [lev_zero_left, lev_zero_left]; push_cast; omega
  | succ i => rw [lev_succ]; exact min3_le2 _ _ _

theorem lev_step_align (i j : Nat) :
    lev v1 v2 (i + 1) (j + 1) ≤ lev v1 v2 i j + (if v1[i]? = v2[j]? then 0 else 2) := by
  rw [lev_succ]; exact min3_le3 _ _ _

end

section
variable {α : Type} [DecidableEq α]

/-- No alignment of the remaining suffixes is cheaper than what the recurrence
still has to add. -/
theorem lev_le_alignCost : ∀ (cs : List Column) (xs ys p1 p2 : List α) (c : Nat),
    alignCost cs xs ys = some c →
    lev (p1 ++ xs) (p2 ++ ys) (p1.length + xs.length) (p2.length + ys.length) ≤
      lev (p1 ++ xs) (p2 ++ ys) p1.length p2.length + (c : Int) := by
  intro cs
  induction cs with
  | nil =>
    intro xs ys p1 p2 c h
    cases xs with
    | nil =>
      cases ys with
      | nil => simp
      | cons y ys => simp [alignCost] at h
    | cons x xs => simp [alignCost] at h
  | cons col cs ih =>
    intro xs ys p1 p2 c h
    cases col with
    | delete =>
      cases xs with
      | nil => simp [alignCost] at h
      | cons x xs =>
        simp only [alignCost, Option.map_eq_some'] at h
        rcases h with ⟨c0, h0, rfl⟩
        have h1 := ih xs ys (p1 ++ [x]) p2 c0 h0
        have h2 := lev_step_delete (p1 ++ x :: xs) (p2 ++ ys) p1.length p2.length
        simp only [List.append_assoc, List.singleton_append, List.length_append,
          List.length_singleton] at h1
        simp only [List.length_cons]
        have e : p1.length + (xs.length + 1) = p1.length + 1 + xs.length := by omega
        rw [e]
        push_cast
        omega
    | insert =>
      cases ys with
      | nil => cases xs <;> simp [alignCost] at h
      | cons y ys =>
        have h' : ∃ c0, alignCost cs xs ys = some c0 ∧ c0 + 1 = c := by
          cases xs <;> simpa [alignCost] using h
        rcases h' with ⟨c0, h0, rfl⟩
        have h1 := ih xs ys p1 (p2 ++ [y]) c0 h0
        have h2 := lev_step_insert (p1 ++ xs) (p2 ++ y :: ys) p1.length p2.length
        simp only [List.append_assoc, List.singleton_append, List.length_append,
          List.length_singleton] at h1
        simp only [List.length_cons]
        have e : p2.length + (ys.length + 1) = p2.length + 1 + ys.length := by omega
        rw [e]
        push_cast
        omega
    | align =>
      cases xs with
      | nil => simp [alignCost] at h
      | cons x xs =>
        cases ys with
        | nil => simp [alignCost] at h
        | cons y ys =>
          simp only [alignCost, Option.map_eq_some'] at h
          rcases h with ⟨c0, h0, rfl⟩
          have h1 := ih xs ys (p1 ++ [x]) (p2 ++ [y]) c0 h0
          have h2 := lev_step_align (p1 ++ x :: xs) (p2 ++ y :: ys) p1.length p2.length
          have ex : (p1 ++ x :: xs)[p1.length]? = some x := by
            rw [List.getElem?_append_right (le_refl _)]; simp
          have ey : (p2 ++ y :: ys)[p2.length]? = some y := by
            rw [List.getElem?_append_right (le_refl _)]; simp
          rw [ex, ey] at h2
          simp only [List.append_assoc, List.singleton_append, List.length_append,
            List.length_singleton] at h1
          simp only [List.length_cons]
          have e1 : p1.length + (xs.length + 1) = p1.length + 1 + xs.length := by omega
          have e2 : p2.length + (ys.length + 1) = p2.length + 1 + ys.length := by omega
          rw [e1, e2]
          by_cases hxy : x = y
          · subst hxy
            simp only [if_true] at h2 ⊢
            push_cast
            omega
          · have hxy2 : ¬ (some x = some y) := by simpa using hxy
            simp only [hxy, hxy2, if_false] at h2 ⊢
            push_cast
            omega

theorem alignCost_snoc_delete : ∀ (cs : List Column) (xs ys : List α) (c : Nat) (x : α),
    alignCost cs xs ys = some c →
    alignCost (cs ++ [Column.delete]) (xs ++ [x]) ys = some (c + 1) := by
  intro cs
  induction cs with
  | nil =>
    intro xs ys c x h
    cases xs <;> cases ys <;> simp [alignCost] at h ⊢
    omega
  | cons col cs ih =>
    intro xs ys c x h
    cases col <;> cases xs <;> cases ys <;>
      simp only [alignCost, Option.map_eq_some', reduceCtorEq] at h
    all_goals
      rcases h with ⟨c0, h0, rfl⟩
      have h1 := ih _ _ c0 x h0
      simp only [List.cons_append, List.nil_append] at h1 ⊢
      simp only [alignCost, h1, Option.map_some', Option.some.injEq]
      try omega

theorem alignCost_snoc_insert : ∀ (cs : List Column) (xs ys : List α) (c : Nat) (y : α),
    alignCost cs xs ys = some c →
    alignCost (cs ++ [Column.insert]) xs (ys ++ [y]) = some (c + 1) := by
  intro cs
  induction cs with
  | nil =>
    intro xs ys c y h
    cases xs <;> cases ys <;> simp [alignCost] at h ⊢
    omega
  | cons col cs ih =>
    intro xs ys c y h
    cases col <;> cases xs <;> cases ys <;>
      simp only [alignCost, Option.map_eq_some', reduceCtorEq] at h
    all_goals
      rcases h with ⟨c0, h0, rfl⟩
      have h1 := ih _ _ c0 y h0
      simp only [List.cons_append, List.nil_append] at h1 ⊢
      simp only [alignCost, h1, Option.map_some', Option.some.injEq]
      try omega

theorem alignCost_snoc_align : ∀ (cs : List Column) (xs ys : List α) (c : Nat) (x y : α),
    alignCost cs xs ys = some c →
    alignCost (cs ++ [Column.align]) (xs ++ [x]) (ys ++ [y]) =
      some (c + (if x = y then 0 else 2)) := by
  intro cs
  induction cs with
  | nil =>
    intro xs ys c x y h
    cases xs <;> cases ys <;> simp [alignCost] at h ⊢
    omega
  | cons col cs ih =>
    intro xs ys c x y h
    cases col <;> cases xs <;> cases ys <;>
      simp only [alignCost, Option.map_eq_some', reduceCtorEq] at h
    all_goals
      rcases h with ⟨c0, h0, rfl⟩
      have h1 := ih _ _ c0 x y h0
      simp only [List.cons_append, List.nil_append] at h1 ⊢
      simp only [alignCost, h1, Option.map_some', Option.some.injEq]
      try omega

end

theorem filterMap_intIndex {α : Type} (v : List α) (l : List Int) :
    l.filterMap (intIndex v) = (l.filter (fun x => decide (x ≠ -1))).filterMap (intIndex v) := by
  induction l with
  | nil => rfl
  | cons x l ih =>
    by_cases hx : x = -1
    · subst hx
      simp [intIndex_neg_one, ih]
    · simp [hx, List.filterMap_cons, ih]

theorem filterMap_getElem_range {α : Type} (v : List α) :
    (List.range v.length).filterMap (fun i => v[i]?) = v := by
  induction v using List.reverseRecOn with
  | nil => rfl
  | append_singleton l a ih =>
    rw [List.length_append, List.length_singleton, List.range_succ, List.filterMap_append]
    have h1 : (List.range l.length).filterMap (fun i => (l ++ [a])[i]?) =
        (List.range l.length).filterMap (fun i => l[i]?) := by
      apply List.filterMap_congr
      intro i hi
      rw [List.mem_range] at hi
      exact List.getElem?_append_left hi
    rw [h1, ih]
    simp

theorem replay_range {α : Type} (v : List α) :
    ((List.range v.length).map Int.ofNat).filterMap (intIndex v) = v := by
  rw [List.filterMap_map]
  have h : (intIndex v ∘ Int.ofNat) = fun i => v[i]? := by
    funext i
    exact intIndex_natCast v i
  rw [h, filterMap_getElem_range]

section
variable {α : Type} [DecidableEq α] (v1 v2 : List α)

theorem take_succ_of_lt {β : Type} (l : List β) (i : Nat) (h : i < l.length) :
    l.take (i + 1) = l.take i ++ [l[i]] := by
  rw [List.take_succ, List.getElem?_eq_getElem h]
  rfl

/-- The value of the recurrence at `(i, j)` is the cost of some alignment of
the two prefixes. -/
theorem exists_alignCost : ∀ (n i j : Nat), i + j ≤ n → i ≤ v1.length → j ≤ v2.length →
    ∃ cs c, alignCost cs (v1.take i) (v2.take j) = some c ∧ (c : Int) = lev v1 v2 i j := by
  intro n
  induction n with
  | zero =>
    intro i j h _ _
    have hi : i = 0 := by omega
    have hj : j = 0 := by omega
    subst hi; subst hj
    exact ⟨[], 0, by simp [alignCost], by simp [lev_zero_left]⟩
  | succ n ih =>
    intro i j h hi hj
    cases i with
    | zero =>
      cases j with
      | zero => exact ⟨[], 0, by simp [alignCost], by simp [lev_zero_left]⟩
      | succ j =>
        rcases ih 0 j (by omega) hi (by omega) with ⟨cs, c, e, ec⟩
        refine ⟨cs ++ [Column.insert], c + 1, ?_, ?_⟩
        · rw [take_succ_of_lt v2 j (by omega)]
          exact alignCost_snoc_insert cs _ _ c _ e
        · rw [lev_zero_left] at ec ⊢
          push_cast; omega
    | succ i =>
      cases j with
      | zero =>
        rcases ih i 0 (by omega) (by omega) hj with ⟨cs, c, e, ec⟩
        refine ⟨cs ++ [Column.delete], c + 1, ?_, ?_⟩
        · rw [take_succ_of_lt v1 i (by omega)]
          exact alignCost_snoc_delete cs _ _ c _ e
        · rw [lev_zero_right] at ec ⊢
          push_cast; omega
      | succ j =>
        have hx : v1[i]? = some v1[i] := List.getElem?_eq_getElem (by omega)
        have hy : v2[j]? = some v2[j] := List.getElem?_eq_getElem (by omega)
        rcases min3_cases (lev v1 v2 i (j + 1) + 1) (lev v1 v2 (i + 1) j + 1)
          (lev v1 v2 i j + (if v1[i]? = v2[j]? then 0 else 2)) with h5 | h5 | h5
        · rcases ih i (j + 1) (by omega) (by omega) hj with ⟨cs, c, e, ec⟩
          refine ⟨cs ++ [Column.delete], c + 1, ?_, ?_⟩
          · rw [take_succ_of_lt v1 i (by omega)]
            exact alignCost_snoc_delete cs _ _ c _ e
          · rw [lev_succ, h5]; push_cast; omega
        · rcases ih (i + 1) j (by omega) hi (by omega) with ⟨cs, c, e, ec⟩
          refine ⟨cs ++ [Column.insert], c + 1, ?_, ?_⟩
          · rw [take_succ_of_lt v2 j (by omega)]
            exact alignCost_snoc_insert cs _ _ c _ e
          · rw [lev_succ, h5]; push_cast; omega
        · rcases ih i j (by omega) (by omega) (by omega) with ⟨cs, c, e, ec⟩
          refine ⟨cs ++ [Column.align], c + (if v1[i] = v2[j] then 0 else 2), ?_, ?_⟩
          · rw [take_succ_of_lt v1 i (by omega), take_succ_of_lt v2 j (by omega)]
            exact alignCost_snoc_align cs _ _ c _ _ e
          · rw [lev_succ, h5, hx, hy]
            by_cases hxy : v1[i] = v2[j]
            · simp [hxy, ec]
            · simp [hxy, ec]

/-- The value of the recurrence at the full lengths is the least cost of an
alignment of `v1` with `v2`. -/
theorem lev_optimal :
    (∃ cs c, alignCost cs v1 v2 = some c ∧ (c : Int) = lev v1 v2 v1.length v2.length) ∧
    (∀ cs c, alignCost cs v1 v2 = some c → lev v1 v2 v1.length v2.length ≤ (c : Int)) := by
  constructor
  · have h := exists_alignCost v1 v2 (v1.length + v2.length) v1.length v2.length
      (le_refl _) (le_refl _) (le_refl _)
    simpa using h
  · intro cs c h
    have h1 := lev_le_alignCost cs v1 v2 [] [] c h
    simpa [lev_zero_left] using h1

/-- What `ComputeMinEdit` does on a fresh instance, step by step. -/
theorem computeMinEdit_fresh :
    ∃ m0 m1 p1 p2, prepare fresh v1.length v2.length = some m0 ∧
      recurse v1 v2 (v1.length + v2.length + 1) v1.length v2.length m0 =
        some (lev v1 v2 v1.length v2.length, m1) ∧
      Inv v1 v2 m1 ∧ (1 ≤ v1.length → 1 ≤ v2.length → IsSet m1 v1.length v2.length) ∧
      backtrace m1 (v1.length + v2.length) (v1.length : Int) (v2.length : Int) [] [] =
        some (p1, p2) ∧
      PathOK v1 v2 v1.length v2.length p1 p2 ∧
      ComputeMinEdit fresh v1 v2 = some ⟨p1.reverse, p2.reverse, m1⟩ := by
  rcases prepare_fresh_inv v1 v2 with ⟨m0, e0, inv0⟩
  rcases recurse_spec v1 v2 (v1.length + v2.length + 1) v1.length v2.length m0 inv0
    (le_refl _) (le_refl _) (by omega) with ⟨m1, e1, inv1, _, set1⟩
  rcases backtrace_spec v1 v2 inv1 (v1.length + v2.length) v1.length v2.length [] []
    (le_refl _) (le_refl _) set1 (le_refl _) with ⟨p1, p2, e2, ok⟩
  simp only [List.nil_append] at e2
  refine ⟨m0, m1, p1, p2, e0, e1, inv1, set1, e2, ok, ?_⟩
  unfold ComputeMinEdit
  simp only [e0, e1]
  have e3 : fresh.align1 = [] := rfl
  have e4 : fresh.align2 = [] := rfl
  rw [e3, e4, e2]

/-- The distance a fresh instance computes is the value of the recurrence. -/
theorem distance_eq_lev : distance v1 v2 = some (lev v1 v2 v1.length v2.length) := by
  rcases computeMinEdit_fresh v1 v2 with ⟨m0, m1, _, _, e0, e1, _⟩
  unfold distance
  simp only [e0, e1, Option.map_some']

theorem Inv.isSet_rect {m : Matrix} (hinv : Inv v1 v2 m) {i j : Nat}
    (hi : i ≤ v1.length) (hj : j ≤ v2.length) (hs : IsSet m i j) :
    ∀ a b, 1 ≤ a → a ≤ i → 1 ≤ b → b ≤ j → IsSet m a b := by
  have hcol : ∀ k a, i - a = k → 1 ≤ a → a ≤ i → 1 ≤ j → IsSet m a j := by
    intro k
    induction k with
    | zero =>
      intro a hk _ ha _
      have : a = i := by omega
      rw [this]; exact hs
    | succ k ih =>
      intro a hk ha1 ha hj1
      have h1 := ih (a + 1) (by omega) (by omega) (by omega) hj1
      exact hinv.down1 (a + 1) j (by omega) hj1 (by omega) hj h1
  have hrow : ∀ k a b, j - b = k → 1 ≤ a → a ≤ i → 1 ≤ b → b ≤ j → IsSet m a b := by
    intro k
    induction k with
    | zero =>
      intro a b hk ha1 ha hb1 hb
      have : b = j := by omega
      rw [this]; exact hcol (i - a) a rfl ha1 ha (by omega)
    | succ k ih =>
      intro a b hk ha1 ha hb1 hb
      have h1 := ih a (b + 1) (by omega) ha1 ha (by omega) (by omega)
      exact hinv.down2 a (b + 1) ha1 (by omega) (by omega) (by omega) h1
  intro a b ha1 ha hb1 hb
  exact hrow (j - b) a b rfl ha1 ha hb1 hb

theorem levTrace_mem (i j : Nat) :
    levTrace v1 v2 i j = 1 ∨ levTrace v1 v2 i j = 2 ∨ levTrace v1 v2 i j = 3 := by
  unfold levTrace
  simp only []
  split_ifs <;> simp

theorem PathOK.mem_range1 {a b : Nat} {p1 p2 : List Int} (h : PathOK v1 v2 a b p1 p2)
    {x : Int} (hx : x ∈ p1) (hne : x ≠ -1) : 0 ≤ x ∧ x < (a : Int) := by
  have h1 : x ∈ p1.filter (fun x => decide (x ≠ -1)) := by
    rw [List.mem_filter]; exact ⟨hx, by simpa using hne⟩
  rw [h.idx1, List.mem_reverse, List.mem_map] at h1
  rcases h1 with ⟨n, hn, rfl⟩
  rw [List.mem_range] at hn
  constructor
  · exact Int.ofNat_nonneg n
  · exact Int.ofNat_lt.2 hn

theorem PathOK.mem_range2 {a b : Nat} {p1 p2 : List Int} (h : PathOK v1 v2 a b p1 p2)
    {y : Int} (hy : y ∈ p2) (hne : y ≠ -1) : 0 ≤ y ∧ y < (b : Int) := by
  have h1 : y ∈ p2.filter (fun x => decide (x ≠ -1)) := by
    rw [List.mem_filter]; exact ⟨hy, by simpa using hne⟩
  rw [h.idx2, List.mem_reverse, List.mem_map] at h1
  rcases h1 with ⟨n, hn, rfl⟩
  rw [List.mem_range] at hn
  constructor
  · exact Int.ofNat_nonneg n
  · exact Int.ofNat_lt.2 hn

end

end Levenshtein

/-! ## More lemmas on the two-sequence aligner -/

namespace Levenshtein

theorem min3_swap (a b c : Int) : min3 a b c = min3 b a c := by
  unfold min3 min
  split_ifs <;> omega

section
variable {α : Type} [DecidableEq α] (v1 v2 : List α)

theorem lev_symm : ∀ (n i j : Nat), i + j ≤ n → lev v1 v2 i j = lev v2 v1 j i := by
  intro n
  induction n with
  | zero =>
    intro i j h
    have hi : i = 0 := by omega
    have hj : j = 0 := by omega
    subst hi; subst hj
    rw [lev_zero_left, lev_zero_left]
  | succ n ih =>
    intro i j h
    cases i with
    | zero => rw [lev_zero_left, lev_zero_right]
    | succ i =>
      cases j with
      | zero => rw [lev_zero_left, lev_zero_right]
      | succ j =>
        rw [lev_succ, lev_succ, ih i (j + 1) (by omega), ih (i + 1) j (by omega),
          ih i j (by omega), min3_swap]
        have e : (v1[i]? = v2[j]?) ↔ (v2[j]? = v1[i]?) := eq_comm
        simp only [e]

theorem lev_self (v : List α) : ∀ (i : Nat), lev v v i i = 0 := by
  intro i
  induction i with
  | zero => rw [lev_zero_left]; rfl
  | succ i ih =>
    have h1 := lev_step_align v v i i
    have h2 := lev_nonneg v v (i + 1 + (i + 1)) (i + 1) (i + 1) (le_refl _)
    simp only [if_true] at h1
    omega

theorem columnCost_nonneg (x y : Int) : 0 ≤ columnCost v1 v2 x y := by
  unfold columnCost
  split_ifs <;> omega

theorem alignmentCost_nonneg : ∀ (p1 p2 : List Int), 0 ≤ alignmentCost v1 v2 p1 p2 := by
  intro p1
  induction p1 with
  | nil => intro p2; simp [alignmentCost]
  | cons x p1 ih =>
    intro p2
    cases p2 with
    | nil => simp [alignmentCost]
    | cons y p2 =>
      rw [alignmentCost_cons]
      have := columnCost_nonneg v1 v2 x y
      have := ih p2
      omega

/-- An alignment of cost 0 has no gap. -/
theorem no_gap_of_cost_zero : ∀ (p1 p2 : List Int), p1.length = p2.length →
    alignmentCost v1 v2 p1 p2 = 0 → (∀ x ∈ p1, x ≠ -1) ∧ (∀ y ∈ p2, y ≠ -1) := by
  intro p1
  induction p1 with
  | nil =>
    intro p2 hl _
    cases p2 with
    | nil => simp
    | cons y p2 => simp at hl
  | cons x p1 ih =>
    intro p2 hl hc
    cases p2 with
    | nil => simp at hl
    | cons y p2 =>
      rw [alignmentCost_cons] at hc
      have h1 := columnCost_nonneg v1 v2 x y
      have h2 := alignmentCost_nonneg v1 v2 p1 p2
      have h3 : columnCost v1 v2 x y = 0 := by omega
      have h4 : alignmentCost v1 v2 p1 p2 = 0 := by omega
      have hxy : ¬ (x = -1 ∨ y = -1) := by
        intro h
        unfold columnCost at h3
        rw [if_pos h] at h3
        omega
      rcases ih p2 (by simpa using hl) h4 with ⟨g1, g2⟩
      constructor
      · intro z hz
        rcases List.mem_cons.1 hz with rfl | hz
        · exact fun h => hxy (Or.inl h)
        · exact g1 z hz
      · intro z hz
        rcases List.mem_cons.1 hz with rfl | hz
        · exact fun h => hxy (Or.inr h)
        · exact g2 z hz

theorem filter_ne_gap_eq_self {p : List Int} (h : ∀ x ∈ p, x ≠ -1) :
    p.filter (fun x => decide (x ≠ -1)) = p := by
  rw [List.filter_eq_self]
  intro x hx
  simpa using h x hx

theorem eq_replicate_of_filter_nil {p : List Int}
    (h : p.filter (fun x => decide (x ≠ -1)) = []) : p = List.replicate p.length (-1) := by
  rw [List.eq_replicate_iff]
  refine ⟨rfl, ?_⟩
  intro x hx
  rw [List.filter_eq_nil_iff] at h
  have := h x hx
  simpa using this

/-- With cost 0 the emitted rows are the two descending index lists. -/
theorem PathOK.diagonal {a b : Nat} {p1 p2 : List Int} (h : PathOK v1 v2 a b p1 p2)
    (h0 : lev v1 v2 a b = 0) :
    p1 = ((List.range a).map Int.ofNat).reverse ∧ p2 = ((List.range b).map Int.ofNat).reverse := by
  rcases no_gap_of_cost_zero v1 v2 p1 p2 h.len (h.cost.trans h0) with ⟨g1, g2⟩
  constructor
  · rw [← h.idx1, filter_ne_gap_eq_self g1]
  · rw [← h.idx2, filter_ne_gap_eq_self g2]

/-- When the second sequence is empty the second row is all gaps. -/
theorem PathOK.right_empty {a : Nat} {p1 p2 : List Int} (h : PathOK v1 v2 a 0 p1 p2) :
    p1 = ((List.range a).map Int.ofNat).reverse ∧ p2 = List.replicate a (-1) := by
  have h2 : p2 = List.replicate p2.length (-1) := eq_replicate_of_filter_nil (by simpa using h.idx2)
  have g1 : ∀ x ∈ p1, x ≠ -1 := by
    intro x hx
    rcases List.mem_iff_getElem?.1 hx with ⟨q, hq⟩
    have hq1 : q < p1.length := by
      rcases List.getElem?_eq_some.1 hq with ⟨h, _⟩; exact h
    have hq2 : p2[q]? = some (-1) := by
      rw [h2, List.getElem?_replicate, if_pos (by rw [← h.len]; exact hq1)]
    rcases h.nogap q x (-1) hq hq2 with h | h
    · exact h
    · exact absurd rfl h
  have e1 : p1 = ((List.range a).map Int.ofNat).reverse := by
    rw [← h.idx1, filter_ne_gap_eq_self g1]
  refine ⟨e1, ?_⟩
  have hl : p2.length = a := by rw [← h.len, e1]; simp
  rw [h2, hl]

/-- When the first sequence is empty the first row is all gaps. -/
theorem PathOK.left_empty {b : Nat} {p1 p2 : List Int} (h : PathOK v1 v2 0 b p1 p2) :
    p1 = List.replicate b (-1) ∧ p2 = ((List.range b).map Int.ofNat).reverse := by
  have h1 : p1 = List.replicate p1.length (-1) := eq_replicate_of_filter_nil (by simpa using h.idx1)
  have g2 : ∀ y ∈ p2, y ≠ -1 := by
    intro y hy
    rcases List.mem_iff_getElem?.1 hy with ⟨q, hq⟩
    have hq2 : q < p2.length := by
      rcases List.getElem?_eq_some.1 hq with ⟨h, _⟩; exact h
    have hq1 : p1[q]? = some (-1) := by
      rw [h1, List.getElem?_replicate, if_pos (by rw [h.len]; exact hq2)]
    rcases h.nogap q (-1) y hq1 hq with h | h
    · exact absurd rfl h
    · exact h
  have e2 : p2 = ((List.range b).map Int.ofNat).reverse := by
    rw [← h.idx2, filter_ne_gap_eq_self g2]
  refine ⟨?_, e2⟩
  have hl : p1.length = b := by rw [h.len, e2]; simp
  rw [h1, hl]

end

/-- The rows already in `align1` and `align2` stay in front of what the back
trace emits. -/
theorem backtrace_acc (m : Matrix) : ∀ (fuel : Nat) (i j : Int) (a1 a2 : List Int),
    backtrace m fuel i j a1 a2 =
      (backtrace m fuel i j [] []).map (fun p => (a1 ++ p.1, a2 ++ p.2)) := by
  intro fuel
  induction fuel with
  | zero =>
    intro i j a1 a2
    unfold backtrace
    split_ifs <;> simp
  | succ fuel ih =>
    intro i j a1 a2
    rw [backtrace, backtrace]
    by_cases hpos : i + j > 0
    · simp only [if_pos hpos]
      cases hrow : intIndex m i with
      | none => simp
      | some row =>
        simp only []
        cases hc : intIndex row j with
        | none => simp
        | some c =>
          simp only []
          by_cases h1 : c.trace = 1
          · simp only [if_pos h1]
            rw [ih (i - 1) j (a1 ++ [i - 1]) (a2 ++ [-1]), ih (i - 1) j ([] ++ [i - 1]) ([] ++ [-1])]
            simp [Option.map_map, Function.comp_def]
          · simp only [if_neg h1]
            by_cases h2 : c.trace = 2
            · simp only [if_pos h2]
              rw [ih i (j - 1) (a1 ++ [-1]) (a2 ++ [j - 1]),
                ih i (j - 1) ([] ++ [-1]) ([] ++ [j - 1])]
              simp [Option.map_map, Function.comp_def]
            · simp only [if_neg h2]
              by_cases h3 : c.trace = 3
              · simp only [if_pos h3]
                rw [ih (i - 1) (j - 1) (a1 ++ [i - 1]) (a2 ++ [j - 1]),
                  ih (i - 1) (j - 1) ([] ++ [i - 1]) ([] ++ [j - 1])]
                simp [Option.map_map, Function.comp_def]
              · simp [if_neg h3]
    · simp [if_neg hpos]

section
variable {α : Type} [DecidableEq α]

/-- The equal pairs of an alignment form a common subsequence, and the cost
counts everything outside it once. -/
theorem alignCost_sublist : ∀ (cs : List Column) (xs ys : List α) (c : Nat),
    alignCost cs xs ys = some c →
    ∃ s : List α, s.Sublist xs ∧ s.Sublist ys ∧
      c + 2 * s.length = xs.length + ys.length := by
  intro cs
  induction cs with
  | nil =>
    intro xs ys c h
    cases xs <;> cases ys <;> simp [alignCost] at h
    exact ⟨[], List.Sublist.slnil, List.Sublist.slnil, by subst h; rfl⟩
  | cons col cs ih =>
    intro xs ys c h
    cases col with
    | delete =>
      cases xs with
      | nil => simp [alignCost] at h
      | cons x xs =>
        simp only [alignCost, Option.map_eq_some'] at h
        rcases h with ⟨c0, h0, rfl⟩
        rcases ih xs ys c0 h0 with ⟨s, s1, s2, e⟩
        exact ⟨s, s1.cons x, s2, by simp only [List.length_cons]; omega⟩
    | insert =>
      cases ys with
      | nil => cases xs <;> simp [alignCost] at h
      | cons y ys =>
        have h' : ∃ c0, alignCost cs xs ys = some c0 ∧ c0 + 1 = c := by
          cases xs <;> simpa [alignCost] using h
        rcases h' with ⟨c0, h0, rfl⟩
        rcases ih xs ys c0 h0 with ⟨s, s1, s2, e⟩
        exact ⟨s, s1, s2.cons y, by simp only [List.length_cons]; omega⟩
    | align =>
      cases xs with
      | nil => simp [alignCost] at h
      | cons x xs =>
        cases ys with
        | nil => simp [alignCost] at h
        | cons y ys =>
          simp only [alignCost, Option.map_eq_some'] at h
          rcases h with ⟨c0, h0, rfl⟩
          rcases ih xs ys c0 h0 with ⟨s, s1, s2, e⟩
          by_cases hxy : x = y
          · subst hxy
            exact ⟨x :: s, s1.cons₂ x, s2.cons₂ x, by simp only [List.length_cons, if_true]; omega⟩
          · exact ⟨s, s1.cons x, s2.cons y, by
              simp only [List.length_cons, if_neg hxy]; omega⟩

/-- A common subsequence gives an alignment that pairs its elements at cost 0
and deletes or inserts every other element. -/
theorem sublist_alignCost : ∀ (n : Nat) (xs ys s : List α), xs.length + ys.length ≤ n →
    s.Sublist xs → s.Sublist ys →
    ∃ cs c, alignCost cs xs ys = some c ∧ c + 2 * s.length = xs.length + ys.length := by
  intro n
  induction n with
  | zero =>
    intro xs ys s hn h1 h2
    have hx : xs = [] := List.length_eq_zero.1 (by omega)
    have hy : ys = [] := List.length_eq_zero.1 (by omega)
    subst hx; subst hy
    have hs : s = [] := List.sublist_nil.1 h1
    subst hs
    exact ⟨[], 0, by simp [alignCost], by simp⟩
  | succ n ih =>
    intro xs ys s hn h1 h2
    cases xs with
    | nil =>
      have hs : s = [] := List.sublist_nil.1 h1
      subst hs
      cases ys with
      | nil => exact ⟨[], 0, by simp [alignCost], by simp⟩
      | cons y ys =>
        rcases ih [] ys [] (by simp at hn ⊢; omega) List.Sublist.slnil (List.nil_sublist _) with
          ⟨cs, c, e, ec⟩
        exact ⟨Column.insert :: cs, c + 1, by simp [alignCost, e], by
          simp only [List.length_cons, List.length_nil] at ec ⊢; omega⟩
    | cons x xs =>
      cases h1 with
      | cons _ h1 =>
        rcases ih xs ys s (by simp at hn ⊢; omega) h1 h2 with ⟨cs, c, e, ec⟩
        exact ⟨Column.delete :: cs, c + 1, by simp [alignCost, e], by
          simp only [List.length_cons] at ec ⊢; omega⟩
      | cons₂ _ h1 =>
        rename_i s0
        cases h2 with
        | cons _ h2 =>
          rename_i ys0 y
          rcases ih (x :: xs) ys0 (x :: s0) (by simp at hn ⊢; omega) (h1.cons₂ x) h2 with
            ⟨cs, c, e, ec⟩
          exact ⟨Column.insert :: cs, c + 1, by simp [alignCost, e], by
            simp only [List.length_cons] at ec ⊢; omega⟩
        | cons₂ _ h2 =>
          rename_i ys0
          rcases ih xs ys0 s0 (by simp at hn ⊢; omega) h1 h2 with ⟨cs, c, e, ec⟩
          exact ⟨Column.align :: cs, c, by simp [alignCost, e], by
            simp only [List.length_cons] at ec ⊢; omega⟩

end

end Levenshtein

/-! ## Lemmas on the three-dimensional table -/

namespace Levenshtein3D

theorem getCell_eq3 (m : Array3D) (i j k : Nat) :
    getCell m i j k = match m[i]? with
      | none => none
      | some a2 =>
        match a2[j]? with
        | none => none
        | some a1 => a1[k]? := by
  unfold getCell
  simp only [List.get?_eq_getElem?]

theorem getCell_writeCell3 (m : Array3D) (i j k : Nat) (f : Tuple → Tuple) (a b c : Nat) :
    getCell (writeCell m i j k f) a b c =
      if a = i ∧ b = j ∧ c = k then (getCell m i j k).map f else getCell m a b c := by
  simp only [getCell_eq3, writeCell, getElem?_modifyAt]
  by_cases hai : a = i
  · subst hai
    cases hp : m[a]? with
    | none => simp
    | some a2 =>
      by_cases hbj : b = j
      · subst hbj
        cases hr : a2[b]? with
        | none => simp [getElem?_modifyAt, hr]
        | some a1 =>
          by_cases hck : c = k
          · subst hck; simp [getElem?_modifyAt, hr]
          · simp [getElem?_modifyAt, hr, hck]
      · simp [getElem?_modifyAt, hbj]
  · simp [hai]

theorem modifyCell_eq {m : Array3D} {i j k : Nat} {t : Tuple} (f : Tuple → Tuple)
    (h : getCell m i j k = some t) : modifyCell m i j k f = some (writeCell m i j k f) := by
  rw [getCell_eq3] at h
  unfold modifyCell writeCell
  simp only [List.get?_eq_getElem?]
  cases hp : m[i]? with
  | none => simp [hp] at h
  | some a2 =>
    simp only [hp] at h
    cases hr : a2[j]? with
    | none => simp [hr] at h
    | some a1 =>
      simp only [hr] at h
      simp only [h]
      have e1 : modifyAt f a1 k = a1.set k (f t) := by
        clear hr
        induction a1 generalizing k with
        | nil => simp at h
        | cons x a1 ih =>
          cases k with
          | zero => simp at h; subst h; rfl
          | succ k => simp at h; simp [modifyAt, ih h]
      have e2 : modifyAt (fun a1 => modifyAt f a1 k) a2 j = a2.set j (a1.set k (f t)) := by
        clear hp
        induction a2 generalizing j with
        | nil => simp at hr
        | cons x a2 ih =>
          cases j with
          | zero => simp at hr; subst hr; simp [modifyAt, e1]
          | succ j => simp at hr; simp [modifyAt, ih hr]
      have e3 : modifyAt (fun a2 => modifyAt (fun a1 => modifyAt f a1 k) a2 j) m i =
          m.set i (a2.set j (a1.set k (f t))) := by
        induction m generalizing i with
        | nil => simp at hp
        | cons x m ih =>
          cases i with
          | zero => simp at hp; subst hp; simp [modifyAt, e2]
          | succ i => simp at hp; simp [modifyAt, ih hp]
      rw [e3]
      simp only [hr, h]

theorem initAxis1_loop (m : Array3D) : ∀ (n : Nat),
    (∀ x, x < n → ∃ c, getCell m x 0 0 = some c) →
    ∃ m1, (List.range n).foldlM
        (fun m i => modifyCell m i 0 0 (fun t => { t with trace := 0 })) m = some m1 ∧
      ∀ a b c, getCell m1 a b c = if a < n ∧ b = 0 ∧ c = 0
        then (getCell m a b c).map (fun t => { t with trace := 0 }) else getCell m a b c := by
  intro n
  induction n with
  | zero => intro _; exact ⟨m, by simp, by simp⟩
  | succ n ih =>
    intro h
    rcases ih (fun x hx => h x (by omega)) with ⟨m1, e1, g1⟩
    rcases h n (by omega) with ⟨c0, hc⟩
    have hc1 : getCell m1 n 0 0 = some c0 := by rw [g1]; simp [hc]
    have e2 := modifyCell_eq (fun t => { t with trace := (0 : Int) }) hc1
    refine ⟨writeCell m1 n 0 0 (fun t => { t with trace := (0 : Int) }), ?_, ?_⟩
    · rw [List.range_succ, List.foldlM_append, e1]
      simp [e2]
    · intro a b c
      rw [getCell_writeCell3]
      by_cases hab : a = n ∧ b = 0 ∧ c = 0
      · rcases hab with ⟨rfl, rfl, rfl⟩
        simp [hc1, hc]
      · rw [if_neg hab, g1]
        by_cases hab2 : a < n ∧ b = 0 ∧ c = 0
        · rw [if_pos hab2, if_pos (by omega)]
        · rw [if_neg hab2, if_neg (by omega)]

theorem initAxis2_loop (m : Array3D) : ∀ (n : Nat),
    (∀ x, x < n → ∃ c, getCell m 0 x 0 = some c) →
    ∃ m1, (List.range n).foldlM
        (fun m j => modifyCell m 0 j 0 (fun t => { t with trace := 1 })) m = some m1 ∧
      ∀ a b c, getCell m1 a b c = if a = 0 ∧ b < n ∧ c = 0
        then (getCell m a b c).map (fun t => { t with trace := 1 }) else getCell m a b c := by
  intro n
  induction n with
  | zero => intro _; exact ⟨m, by simp, by simp⟩
  | succ n ih =>
    intro h
    rcases ih (fun x hx => h x (by omega)) with ⟨m1, e1, g1⟩
    rcases h n (by omega) with ⟨c0, hc⟩
    have hc1 : getCell m1 0 n 0 = some c0 := by rw [g1]; simp [hc]
    have e2 := modifyCell_eq (fun t => { t with trace := (1 : Int) }) hc1
    refine ⟨writeCell m1 0 n 0 (fun t => { t with trace := (1 : Int) }), ?_, ?_⟩
    · rw [List.range_succ, List.foldlM_append, e1]
      simp [e2]
    · intro a b c
      rw [getCell_writeCell3]
      by_cases hab : a = 0 ∧ b = n ∧ c = 0
      · rcases hab with ⟨rfl, rfl, rfl⟩
        simp [hc1, hc]
      · rw [if_neg hab, g1]
        by_cases hab2 : a = 0 ∧ b < n ∧ c = 0
        · rw [if_pos hab2, if_pos (by omega)]
        · rw [if_neg hab2, if_neg (by omega)]

theorem initAxis3_loop (m : Array3D) : ∀ (n : Nat),
    (∀ x, x < n → ∃ c, getCell m 0 0 x = some c) →
    ∃ m1, (List.range n).foldlM
        (fun m k => modifyCell m 0 0 k (fun t => { t with trace := 2 })) m = some m1 ∧
      ∀ a b c, getCell m1 a b c = if a = 0 ∧ b = 0 ∧ c < n
        then (getCell m a b c).map (fun t => { t with trace := 2 }) else getCell m a b c := by
  intro n
  induction n with
  | zero => intro _; exact ⟨m, by simp, by simp⟩
  | succ n ih =>
    intro h
    rcases ih (fun x hx => h x (by omega)) with ⟨m1, e1, g1⟩
    rcases h n (by omega) with ⟨c0, hc⟩
    have hc1 : getCell m1 0 0 n = some c0 := by rw [g1]; simp [hc]
    have e2 := modifyCell_eq (fun t => { t with trace := (2 : Int) }) hc1
    refine ⟨writeCell m1 0 0 n (fun t => { t with trace := (2 : Int) }), ?_, ?_⟩
    · rw [List.range_succ, List.foldlM_append, e1]
      simp [e2]
    · intro a b c
      rw [getCell_writeCell3]
      by_cases hab : a = 0 ∧ b = 0 ∧ c = n
      · rcases hab with ⟨rfl, rfl, rfl⟩
        simp [hc1, hc]
      · rw [if_neg hab, g1]
        by_cases hab2 : a = 0 ∧ b = 0 ∧ c < n
        · rw [if_pos hab2, if_pos (by omega)]
        · rw [if_neg hab2, if_neg (by omega)]

theorem getCell_replicate3 (len1 len2 len3 : Nat) (t : Tuple) (a b c : Nat) :
    getCell (List.replicate (len1 + 1) (List.replicate (len2 + 1) (List.replicate (len3 + 1) t)))
        a b c =
      if a ≤ len1 ∧ b ≤ len2 ∧ c ≤ len3 then some t else none := by
  rw [getCell_eq3, List.getElem?_replicate]
  by_cases ha : a < len1 + 1
  · rw [if_pos ha]
    simp only [List.getElem?_replicate]
    by_cases hb : b < len2 + 1
    · rw [if_pos hb]
      simp only [List.getElem?_replicate]
      by_cases hc : c < len3 + 1
      · rw [if_pos hc, if_pos ⟨by omega, by omega, by omega⟩]
      · rw [if_neg hc, if_neg (by omega)]
    · rw [if_neg hb, if_neg (by omega)]
  · rw [if_neg ha, if_neg (by omega)]

/-- The table of a fresh instance after the three boundary loops. -/
theorem prepare_fresh3 (len1 len2 len3 : Nat) :
    ∃ m0, prepare fresh len1 len2 len3 = some m0 ∧
      ∀ a b c, getCell m0 a b c =
        if a ≤ len1 ∧ b ≤ len2 ∧ c ≤ len3 then some ⟨-1, axisTrace a b c⟩ else none := by
  have hm : vectorResize fresh.m (len1 + 1)
      (vectorResize ([] : Array2D) (len2 + 1)
        (vectorResize ([] : Array1D) (len3 + 1) Levenshtein.Tuple.default)) =
      List.replicate (len1 + 1) (List.replicate (len2 + 1)
        (List.replicate (len3 + 1) Levenshtein.Tuple.default)) := by
    simp [vectorResize, fresh]
  rcases initAxis1_loop (List.replicate (len1 + 1) (List.replicate (len2 + 1)
      (List.replicate (len3 + 1) Levenshtein.Tuple.default))) (len1 + 1)
    (fun x hx => ⟨Levenshtein.Tuple.default, by
      rw [getCell_replicate3, if_pos ⟨by omega, by omega, by omega⟩]⟩) with ⟨m1, e1, g1⟩
  rcases initAxis2_loop m1 (len2 + 1) (fun x hx => by
    have hin : 0 ≤ len1 ∧ x ≤ len2 ∧ 0 ≤ len3 := ⟨by omega, by omega, by omega⟩
    simp only [g1, getCell_replicate3, if_pos hin]
    split_ifs <;> exact ⟨_, rfl⟩) with ⟨m2, e2, g2⟩
  rcases initAxis3_loop m2 (len3 + 1) (fun x hx => by
    have hin : 0 ≤ len1 ∧ 0 ≤ len2 ∧ x ≤ len3 := ⟨by omega, by omega, by omega⟩
    simp only [g2, g1, getCell_replicate3, if_pos hin]
    split_ifs <;> exact ⟨_, rfl⟩) with ⟨m3, e3, g3⟩
  refine ⟨m3, ?_, ?_⟩
  · unfold prepare
    simp only [hm]
    unfold initAxis1 initAxis2 initAxis3
    rw [e1]
    simp only []
    rw [e2]
    exact e3
  · intro a b c
    rw [g3, g2, g1, getCell_replicate3]
    unfold axisTrace
    by_cases hin : a ≤ len1 ∧ b ≤ len2 ∧ c ≤ len3
    · rw [if_pos hin, if_pos hin]
      rcases hin with ⟨ha, hb, hc⟩
      by_cases ha0 : a = 0 <;> by_cases hb0 : b = 0 <;> by_cases hc0 : c = 0 <;>
        simp [ha0, hb0, hc0, Levenshtein.Tuple.default, Nat.lt_succ_of_le, ha, hb, hc]
    · rw [if_neg hin, if_neg hin]
      split_ifs <;> rfl

theorem min3_eq_zero_iff (i j k : Nat) :
    min3 (i : Int) (j : Int) (k : Int) = 0 ↔ (i = 0 ∨ j = 0 ∨ k = 0) := by
  unfold min3 min
  split_ifs <;> omega

theorem axisTrace_inner {i j : Nat} (k : Nat) (hi : 1 ≤ i) (hj : 1 ≤ j) :
    axisTrace i j k = -1 := by
  unfold axisTrace
  rw [if_neg (by omega), if_neg (by omega), if_neg (by omega)]

/-- The scan either never updates, or its result does not depend on the trace it started with. -/
theorem scanVal_cases : ∀ (ds : List Int) (it : Nat) (dMin : Int),
    (∀ t, scanVal it ds (dMin, t) = (dMin, t)) ∨
      (∃ r q, ∀ t, scanVal it ds (dMin, t) = (r, q)) := by
  intro ds
  induction ds with
  | nil => intro it dMin; exact Or.inl (fun t => rfl)
  | cons d ds ih =>
    intro it dMin
    by_cases hd : d ≤ dMin
    · right
      refine ⟨(scanVal (it + 1) ds (d, (it : Int))).1, (scanVal (it + 1) ds (d, (it : Int))).2, ?_⟩
      intro t
      simp only [scanVal, if_pos hd]
    · rcases ih (it + 1) dMin with h | ⟨r, q, h⟩
      · left
        intro t
        simp only [scanVal, if_neg hd]
        exact h t
      · right
        refine ⟨r, q, ?_⟩
        intro t
        simp only [scanVal, if_neg hd]
        exact h t

theorem scanVal_fst (ds : List Int) (it : Nat) (dMin t1 t2 : Int) :
    (scanVal it ds (dMin, t1)).1 = (scanVal it ds (dMin, t2)).1 := by
  rcases scanVal_cases ds it dMin with h | ⟨r, q, h⟩
  · rw [h t1, h t2]
  · rw [h t1, h t2]

theorem scanVal_snd_idem (ds : List Int) (it : Nat) (dMin t : Int) :
    (scanVal it ds (dMin, (scanVal it ds (dMin, t)).2)).2 = (scanVal it ds (dMin, t)).2 := by
  rcases scanVal_cases ds it dMin with h | ⟨r, q, h⟩
  · rw [h t, h t]
  · rw [h t, h q]

theorem scanVal_nonneg : ∀ (ds : List Int) (it : Nat) (dMin t : Int), 0 ≤ dMin →
    (∀ d ∈ ds, 0 ≤ d) → 0 ≤ (scanVal it ds (dMin, t)).1 := by
  intro ds
  induction ds with
  | nil => intro it dMin t h _; exact h
  | cons d ds ih =>
    intro it dMin t h hds
    have hd : 0 ≤ d := hds d (List.mem_cons_self _ _)
    have hds2 : ∀ e ∈ ds, 0 ≤ e := fun e he => hds e (List.mem_cons_of_mem _ he)
    simp only [scanVal]
    by_cases hle : d ≤ dMin
    · rw [if_pos hle]; exact ih _ _ _ hd hds2
    · rw [if_neg hle]; exact ih _ _ _ h hds2

/-- The scan of `recurse` computes `scanVal` and leaves its trace in the cell `(i, j, k)`. -/
theorem scan_spec (i j k : Nat) : ∀ (ds : List Int) (it : Nat) (dMin : Int) (m : Array3D)
    (c : Tuple), getCell m i j k = some c →
    ∃ m1, scan i j k it ds (dMin, m) = ((scanVal it ds (dMin, c.trace)).1, m1) ∧
      ∀ a b c1, getCell m1 a b c1 =
        if a = i ∧ b = j ∧ c1 = k
        then some ⟨c.distance, (scanVal it ds (dMin, c.trace)).2⟩ else getCell m a b c1 := by
  intro ds
  induction ds with
  | nil =>
    intro it dMin m c hc
    refine ⟨m, rfl, ?_⟩
    intro a b c1
    by_cases h : a = i ∧ b = j ∧ c1 = k
    · rcases h with ⟨rfl, rfl, rfl⟩
      rw [if_pos ⟨rfl, rfl, rfl⟩, hc]
      rfl
    · rw [if_neg h]
  | cons d ds ih =>
    intro it dMin m c hc
    by_cases hd : d ≤ dMin
    · have hc1 : getCell (writeCell m i j k (fun t => { t with trace := (it : Int) })) i j k =
          some ⟨c.distance, (it : Int)⟩ := by
        rw [getCell_writeCell3, if_pos ⟨rfl, rfl, rfl⟩, hc]; rfl
      rcases ih (it + 1) d _ _ hc1 with ⟨m1, e1, g1⟩
      refine ⟨m1, ?_, ?_⟩
      · simp only [scan, scanStep, scanVal, if_pos hd]
        exact e1
      · intro a b c1
        rw [g1]
        simp only [scanVal, if_pos hd]
        by_cases h : a = i ∧ b = j ∧ c1 = k
        · rw [if_pos h, if_pos h]
        · rw [if_neg h, if_neg h, getCell_writeCell3, if_neg h]
    · rcases ih (it + 1) dMin m c hc with ⟨m1, e1, g1⟩
      refine ⟨m1, ?_, ?_⟩
      · simp only [scan, scanStep, scanVal, if_neg hd]
        exact e1
      · intro a b c1
        rw [g1]
        simp only [scanVal, if_neg hd]

section
variable {α : Type} [DecidableEq α] (v1 v2 v3 : List α)

theorem lev3_face (i j k : Nat) (h : i = 0 ∨ j = 0 ∨ k = 0) :
    lev3 v1 v2 v3 i j k = (i : Int) + (j : Int) + (k : Int) := by
  cases i with
  | zero => rw [lev3]; push_cast; ring
  | succ i =>
    cases j with
    | zero => rw [lev3]; push_cast; ring
    | succ j =>
      cases k with
      | zero => rw [lev3]; push_cast; ring
      | succ k => omega

theorem lev3_inner (i j k : Nat) (hi : 1 ≤ i) (hj : 1 ≤ j) (hk : 1 ≤ k) :
    lev3 v1 v2 v3 i j k = (scanVal 0 (candidates v1 v2 v3 i j k) (INT_MAX, -1)).1 := by
  obtain ⟨i0, rfl⟩ : ∃ i0, i = i0 + 1 := ⟨i - 1, by omega⟩
  obtain ⟨j0, rfl⟩ : ∃ j0, j = j0 + 1 := ⟨j - 1, by omega⟩
  obtain ⟨k0, rfl⟩ : ∃ k0, k = k0 + 1 := ⟨k - 1, by omega⟩
  rw [lev3]
  simp only [candidates, Nat.add_sub_cancel]

theorem lev3_nonneg : ∀ (n i j k : Nat), i + j + k ≤ n → 0 ≤ lev3 v1 v2 v3 i j k := by
  intro n
  induction n with
  | zero =>
    intro i j k h
    rw [lev3_face v1 v2 v3 i j k (by omega)]
    omega
  | succ n ih =>
    intro i j k h
    by_cases hf : i = 0 ∨ j = 0 ∨ k = 0
    · rw [lev3_face v1 v2 v3 i j k hf]; omega
    · rw [lev3_inner v1 v2 v3 i j k (by omega) (by omega) (by omega)]
      apply scanVal_nonneg
      · unfold INT_MAX; omega
      · intro d hd
        simp only [candidates, List.mem_cons, List.mem_singleton, List.not_mem_nil, or_false] at hd
        have h0 := ih (i - 1) j k (by omega)
        have h1 := ih i (j - 1) k (by omega)
        have h2 := ih i j (k - 1) (by omega)
        have h3 := ih (i - 1) (j - 1) k (by omega)
        have h4 := ih (i - 1) j (k - 1) (by omega)
        have h5 := ih i (j - 1) (k - 1) (by omega)
        have h6 := ih (i - 1) (j - 1) (k - 1) (by omega)
        rcases hd with rfl | rfl | rfl | rfl | rfl | rfl | rfl
        · omega
        · omega
        · omega
        · split_ifs <;> omega
        · split_ifs <;> omega
        · split_ifs <;> omega
        · split_ifs <;> omega

theorem lev3_ne_neg_one (i j k : Nat) : lev3 v1 v2 v3 i j k ≠ -1 := by
  have := lev3_nonneg v1 v2 v3 (i + j + k) i j k (le_refl _)
  omega

end

theorem Mono.refl3 (m : Array3D) : Mono m m := fun _ _ _ _ h _ => h

theorem Mono.trans3 {m m1 m2 : Array3D} (h1 : Mono m m1) (h2 : Mono m1 m2) : Mono m m2 :=
  fun a b c t hc hd => h2 a b c t (h1 a b c t hc hd) hd

theorem Mono.isSet3 {m m1 : Array3D} (h : Mono m m1) {i j k : Nat} (hs : IsSet m i j k) :
    IsSet m1 i j k := by
  rcases hs with ⟨c, hc, hd⟩
  exact ⟨c, h i j k c hc hd, hd⟩

section
variable {α : Type} [DecidableEq α] (v1 v2 v3 : List α)

/-- Writing `i + j + k` into an unset cell with a zero index keeps the invariant. -/
theorem Inv.store_outer {m : Array3D} {i j k : Nat} {c : Tuple} (hinv : Inv v1 v2 v3 m)
    (hi2 : i ≤ v1.length) (hj2 : j ≤ v2.length) (hk2 : k ≤ v3.length)
    (h0 : i = 0 ∨ j = 0 ∨ k = 0) (hc : getCell m i j k = some c) (hd : c.distance = -1)
    (m1 : Array3D)
    (hget : ∀ a b c1, getCell m1 a b c1 =
      if a = i ∧ b = j ∧ c1 = k
      then some ⟨(i : Int) + (j : Int) + (k : Int), c.trace⟩ else getCell m a b c1) :
    Inv v1 v2 v3 m1 ∧ Mono m m1 ∧ IsSet m1 i j k := by
  have hsame : ∀ a b c1, 1 ≤ a → 1 ≤ b → 1 ≤ c1 → getCell m1 a b c1 = getCell m a b c1 := by
    intro a b c1 ha hb hc1
    rw [hget, if_neg (by omega)]
  have hset : ∀ a b c1, 1 ≤ a → 1 ≤ b → 1 ≤ c1 → (IsSet m1 a b c1 ↔ IsSet m a b c1) := by
    intro a b c1 ha hb hc1
    unfold IsSet
    rw [hsame a b c1 ha hb hc1]
  refine ⟨⟨?_, ?_, ?_, ?_⟩, ?_, ?_⟩
  · intro a b c1 ha hb hc1
    rw [hget]
    by_cases h : a = i ∧ b = j ∧ c1 = k
    · rw [if_pos h]; exact ⟨_, rfl⟩
    · rw [if_neg h]; exact hinv.cell a b c1 ha hb hc1
  · intro a b c1 t ha hb hc1 hz ht
    rw [hget] at ht
    by_cases h : a = i ∧ b = j ∧ c1 = k
    · rcases h with ⟨rfl, rfl, rfl⟩
      rw [if_pos ⟨rfl, rfl, rfl⟩] at ht
      cases ht
      exact ⟨(hinv.outer a b c1 c ha hb hc1 hz hc).1, Or.inr rfl⟩
    · rw [if_neg h] at ht
      exact hinv.outer a b c1 t ha hb hc1 hz ht
  · intro a b c1 t ha1 hb1 hc11 ha hb hc1 ht
    rw [hsame a b c1 ha1 hb1 hc11] at ht
    exact hinv.inner a b c1 t ha1 hb1 hc11 ha hb hc1 ht
  · intro a b c1 ha1 hb1 hc11 ha hb hc1 hs
    rw [hset a b c1 ha1 hb1 hc11] at hs
    rcases hinv.down a b c1 ha1 hb1 hc11 ha hb hc1 hs with ⟨d1, d2, d3⟩
    refine ⟨fun h => ?_, fun h => ?_, fun h => ?_⟩
    · rw [hset (a - 1) b c1 (by omega) hb1 hc11]; exact d1 h
    · rw [hset a (b - 1) c1 ha1 (by omega) hc11]; exact d2 h
    · rw [hset a b (c1 - 1) ha1 hb1 (by omega)]; exact d3 h
  · intro a b c1 t ht htd
    rw [hget]
    by_cases h : a = i ∧ b = j ∧ c1 = k
    · rcases h with ⟨rfl, rfl, rfl⟩
      rw [hc] at ht
      cases ht
      exact absurd hd htd
    · rw [if_neg h]; exact ht
  · refine ⟨_, by rw [hget, if_pos ⟨rfl, rfl, rfl⟩], ?_⟩
    show (i : Int) + (j : Int) + (k : Int) ≠ -1
    omega

/-- Writing value and trace of the recurrence into an inner cell keeps the invariant. -/
theorem Inv.store_inner {m : Array3D} {i j k : Nat} (hinv : Inv v1 v2 v3 m)
    (hi1 : 1 ≤ i) (hj1 : 1 ≤ j) (hk1 : 1 ≤ k)
    (hi2 : i ≤ v1.length) (hj2 : j ≤ v2.length) (hk2 : k ≤ v3.length)
    (hd1 : 2 ≤ i → IsSet m (i - 1) j k) (hd2 : 2 ≤ j → IsSet m i (j - 1) k)
    (hd3 : 2 ≤ k → IsSet m i j (k - 1))
    (m1 : Array3D)
    (hget : ∀ a b c1, getCell m1 a b c1 =
      if a = i ∧ b = j ∧ c1 = k
      then some ⟨lev3 v1 v2 v3 i j k, trace3 v1 v2 v3 i j k⟩ else getCell m a b c1) :
    Inv v1 v2 v3 m1 ∧ Mono m m1 ∧ IsSet m1 i j k := by
  have hmono : Mono m m1 := by
    intro a b c1 t ht htd
    rw [hget]
    by_cases h : a = i ∧ b = j ∧ c1 = k
    · rcases h with ⟨rfl, rfl, rfl⟩
      rw [if_pos ⟨rfl, rfl, rfl⟩]
      rcases hinv.inner a b c1 t hi1 hj1 hk1 hi2 hj2 hk2 ht with ⟨e, _⟩ | ⟨e1, e2⟩
      · exact absurd e htd
      · cases t
        simp_all
    · rw [if_neg h]; exact ht
  have hnew : IsSet m1 i j k :=
    ⟨_, by rw [hget, if_pos ⟨rfl, rfl, rfl⟩], lev3_ne_neg_one v1 v2 v3 i j k⟩
  have hback : ∀ a b c1, ¬ (a = i ∧ b = j ∧ c1 = k) → IsSet m1 a b c1 → IsSet m a b c1 := by
    intro a b c1 h hs
    rcases hs with ⟨t, ht, htd⟩
    rw [hget, if_neg h] at ht
    exact ⟨t, ht, htd⟩
  refine ⟨⟨?_, ?_, ?_, ?_⟩, hmono, hnew⟩
  · intro a b c1 ha hb hc1
    rw [hget]
    by_cases h : a = i ∧ b = j ∧ c1 = k
    · rw [if_pos h]; exact ⟨_, rfl⟩
    · rw [if_neg h]; exact hinv.cell a b c1 ha hb hc1
  · intro a b c1 t ha hb hc1 hz ht
    rw [hget, if_neg (by omega)] at ht
    exact hinv.outer a b c1 t ha hb hc1 hz ht
  · intro a b c1 t ha1 hb1 hc11 ha hb hc1 ht
    rw [hget] at ht
    by_cases h : a = i ∧ b = j ∧ c1 = k
    · rcases h with ⟨rfl, rfl, rfl⟩
      rw [if_pos ⟨rfl, rfl, rfl⟩] at ht
      cases ht
      exact Or.inr ⟨rfl, rfl⟩
    · rw [if_neg h] at ht
      exact hinv.inner a b c1 t ha1 hb1 hc11 ha hb hc1 ht
  · intro a b c1 ha1 hb1 hc11 ha hb hc1 hs
    by_cases h : a = i ∧ b = j ∧ c1 = k
    · rcases h with ⟨rfl, rfl, rfl⟩
      exact ⟨fun h => hmono.isSet3 (hd1 h), fun h => hmono.isSet3 (hd2 h),
        fun h => hmono.isSet3 (hd3 h)⟩
    · rcases hinv.down a b c1 ha1 hb1 hc11 ha hb hc1 (hback a b c1 h hs) with ⟨d1, d2, d3⟩
      exact ⟨fun h => hmono.isSet3 (d1 h), fun h => hmono.isSet3 (d2 h),
        fun h => hmono.isSet3 (d3 h)⟩

end

section
variable {α : Type} [DecidableEq α] (v1 v2 v3 : List α)

/-- The memoised `recurse` returns the value of the recurrence, keeps the
invariant and the memoised cells, and leaves the cell `(i, j, k)` memoised. -/
theorem recurse_spec3 : ∀ (fuel i j k : Nat) (m : Array3D), Inv v1 v2 v3 m →
    i ≤ v1.length → j ≤ v2.length → k ≤ v3.length → i + j + k < fuel →
    ∃ m1, recurse v1 v2 v3 fuel i j k m = some (lev3 v1 v2 v3 i j k, m1) ∧
      Inv v1 v2 v3 m1 ∧ Mono m m1 ∧ IsSet m1 i j k := by
  intro fuel
  induction fuel with
  | zero => intro i j k m _ _ _ _ h; omega
  | succ fuel ih =>
    intro i j k m hinv hi2 hj2 hk2 hfuel
    rcases hinv.cell i j k hi2 hj2 hk2 with ⟨c, hc⟩
    rw [recurse]
    simp only [hc]
    by_cases hd : c.distance ≠ -1
    · rw [if_pos hd]
      refine ⟨m, ?_, hinv, Mono.refl3 m, ⟨c, hc, hd⟩⟩
      by_cases h0 : i = 0 ∨ j = 0 ∨ k = 0
      · rcases (hinv.outer i j k c hi2 hj2 hk2 h0 hc).2 with e | e
        · exact absurd e hd
        · rw [e, lev3_face v1 v2 v3 i j k h0]
      · rcases hinv.inner i j k c (by omega) (by omega) (by omega) hi2 hj2 hk2 hc with
          ⟨e, _⟩ | ⟨e, _⟩
        · exact absurd e hd
        · rw [e]
    · rw [if_neg hd]
      have hd1 : c.distance = -1 := by
        by_contra h; exact hd h
      by_cases h0 : i = 0 ∨ j = 0 ∨ k = 0
      · rw [if_pos ((min3_eq_zero_iff i j k).2 h0)]
        have hval : (if k = 0 then (i : Int) + (j : Int)
            else if j = 0 then (i : Int) + (k : Int)
            else if i = 0 then (j : Int) + (k : Int) else -1) =
            (i : Int) + (j : Int) + (k : Int) := by
          split_ifs <;> omega
        simp only [hval]
        have hget : ∀ a b c1,
            getCell (writeCell m i j k
              (fun t => { t with distance := (i : Int) + (j : Int) + (k : Int) })) a b c1 =
            if a = i ∧ b = j ∧ c1 = k
            then some ⟨(i : Int) + (j : Int) + (k : Int), c.trace⟩ else getCell m a b c1 := by
          intro a b c1
          rw [getCell_writeCell3]
          by_cases h : a = i ∧ b = j ∧ c1 = k
          · rw [if_pos h, if_pos h, hc]; rfl
          · rw [if_neg h, if_neg h]
        rcases Inv.store_outer v1 v2 v3 hinv hi2 hj2 hk2 h0 hc hd1 _ hget with ⟨i1, mo1, s1⟩
        exact ⟨_, by rw [lev3_face v1 v2 v3 i j k h0], i1, mo1, s1⟩
      · rw [if_neg (fun h => h0 ((min3_eq_zero_iff i j k).1 h))]
        have hi1 : 1 ≤ i := by omega
        have hj1 : 1 ≤ j := by omega
        have hk1 : 1 ≤ k := by omega
        have hx1 : v1[i - 1]? = some v1[i - 1] := List.getElem?_eq_getElem (by omega)
        have hx2 : v2[j - 1]? = some v2[j - 1] := List.getElem?_eq_getElem (by omega)
        have hx3 : v3[k - 1]? = some v3[k - 1] := List.getElem?_eq_getElem (by omega)
        simp only [List.get?_eq_getElem?, hx1, hx2, hx3]
        rcases ih (i - 1) j k m hinv (by omega) hj2 hk2 (by omega) with ⟨m0, e0, inv0, mo0, s0⟩
        rcases ih i (j - 1) k m0 inv0 hi2 (by omega) hk2 (by omega) with ⟨m1, e1, inv1, mo1, s1⟩
        rcases ih i j (k - 1) m1 inv1 hi2 hj2 (by omega) (by omega) with ⟨m2, e2, inv2, mo2, s2⟩
        rcases ih (i - 1) (j - 1) k m2 inv2 (by omega) (by omega) hk2 (by omega) with
          ⟨m3, e3, inv3, mo3, _⟩
        rcases ih (i - 1) j (k - 1) m3 inv3 (by omega) hj2 (by omega) (by omega) with
          ⟨m4, e4, inv4, mo4, _⟩
        rcases ih i (j - 1) (k - 1) m4 inv4 hi2 (by omega) (by omega) (by omega) with
          ⟨m5, e5, inv5, mo5, _⟩
        rcases ih (i - 1) (j - 1) (k - 1) m5 inv5 (by omega) (by omega) (by omega) (by omega) with
          ⟨m6, e6, inv6, mo6, _⟩
        simp only [e0, e1, e2, e3, e4, e5, e6]
        have hcand :
            [lev3 v1 v2 v3 (i - 1) j k + 1, lev3 v1 v2 v3 i (j - 1) k + 1,
             lev3 v1 v2 v3 i j (k - 1) + 1,
             lev3 v1 v2 v3 (i - 1) (j - 1) k +
               (if decide (v1[i - 1] = v2[j - 1]) = true then 0 else 2),
             lev3 v1 v2 v3 (i - 1) j (k - 1) +
               (if decide (v1[i - 1] = v3[k - 1]) = true then 0 else 2),
             lev3 v1 v2 v3 i (j - 1) (k - 1) +
               (if decide (v2[j - 1] = v3[k - 1]) = true then 0 else 2),
             lev3 v1 v2 v3 (i - 1) (j - 1) (k - 1) +
               (if (decide (v1[i - 1] = v2[j - 1]) && decide (v2[j - 1] = v3[k - 1])) = true
                then 0 else 4)] = candidates v1 v2 v3 i j k := by
          unfold candidates
          simp only [hx1, hx2, hx3, Option.some.injEq, decide_eq_true_eq, Bool.and_eq_true]
        rw [hcand]
        rcases inv6.cell i j k hi2 hj2 hk2 with ⟨c6, hc6⟩
        rcases scan_spec i j k (candidates v1 v2 v3 i j k) 0 INT_MAX m6 c6 hc6 with ⟨m7, e7, g7⟩
        rw [e7]
        simp only []
        have hfst : (scanVal 0 (candidates v1 v2 v3 i j k) (INT_MAX, c6.trace)).1 =
            lev3 v1 v2 v3 i j k := by
          rw [lev3_inner v1 v2 v3 i j k hi1 hj1 hk1]
          exact scanVal_fst _ _ _ _ _
        have hsnd : (scanVal 0 (candidates v1 v2 v3 i j k) (INT_MAX, c6.trace)).2 =
            trace3 v1 v2 v3 i j k := by
          rcases inv6.inner i j k c6 hi1 hj1 hk1 hi2 hj2 hk2 hc6 with ⟨_, e⟩ | ⟨_, e⟩
          · rw [e]; rfl
          · rw [e]
            unfold trace3
            exact scanVal_snd_idem _ _ _ _
        rw [hfst]
        have hget : ∀ a b c1,
            getCell (writeCell m7 i j k
              (fun t => { t with distance := lev3 v1 v2 v3 i j k })) a b c1 =
            if a = i ∧ b = j ∧ c1 = k
            then some ⟨lev3 v1 v2 v3 i j k, trace3 v1 v2 v3 i j k⟩ else getCell m6 a b c1 := by
          intro a b c1
          rw [getCell_writeCell3]
          by_cases h : a = i ∧ b = j ∧ c1 = k
          · rw [if_pos h, if_pos h, g7, if_pos ⟨rfl, rfl, rfl⟩, hsnd]; rfl
          · rw [if_neg h, if_neg h, g7, if_neg h]
        have hs0 : 2 ≤ i → IsSet m6 (i - 1) j k := fun _ =>
          mo6.isSet3 (mo5.isSet3 (mo4.isSet3 (mo3.isSet3 (mo2.isSet3 (mo1.isSet3 s0)))))
        have hs1 : 2 ≤ j → IsSet m6 i (j - 1) k := fun _ =>
          mo6.isSet3 (mo5.isSet3 (mo4.isSet3 (mo3.isSet3 (mo2.isSet3 s1))))
        have hs2 : 2 ≤ k → IsSet m6 i j (k - 1) := fun _ =>
          mo6.isSet3 (mo5.isSet3 (mo4.isSet3 (mo3.isSet3 s2)))
        rcases Inv.store_inner v1 v2 v3 inv6 hi1 hj1 hk1 hi2 hj2 hk2 hs0 hs1 hs2 _ hget with
          ⟨i8, mo8, s8⟩
        exact ⟨_, rfl, i8,
          mo0.trans3 (mo1.trans3 (mo2.trans3 (mo3.trans3 (mo4.trans3 (mo5.trans3 (mo6.trans3 mo8)))))),
          s8⟩

end

/-- What the scan returns: a value below the start value and below every
candidate; and either nothing was at most the start value and the state is
unchanged, or the value is the candidate at the last position where the
running minimum was reached, which is the trace. -/
theorem scanVal_spec : ∀ (ds : List Int) (it : Nat) (dMin t : Int),
    (scanVal it ds (dMin, t)).1 ≤ dMin ∧
    (∀ (q : Nat) (d : Int), ds[q]? = some d → (scanVal it ds (dMin, t)).1 ≤ d) ∧
    ((scanVal it ds (dMin, t) = (dMin, t) ∧ ∀ (q : Nat) (d : Int), ds[q]? = some d → dMin < d) ∨
      (∃ q : Nat, ds[q]? = some (scanVal it ds (dMin, t)).1 ∧
        (scanVal it ds (dMin, t)).2 = ((it + q : Nat) : Int) ∧
        ∀ (q1 : Nat) (d : Int), q < q1 → ds[q1]? = some d → (scanVal it ds (dMin, t)).1 < d)) := by
  intro ds
  induction ds with
  | nil =>
    intro it dMin t
    refine ⟨le_refl _, ?_, Or.inl ⟨rfl, ?_⟩⟩
    · intro q d h; simp at h
    · intro q d h; simp at h
  | cons d0 ds ih =>
    intro it dMin t
    by_cases hd : d0 ≤ dMin
    · have e : scanVal it (d0 :: ds) (dMin, t) = scanVal (it + 1) ds (d0, (it : Int)) := by
        simp only [scanVal, if_pos hd]
      rw [e]
      rcases ih (it + 1) d0 (it : Int) with ⟨h1, h2, h3⟩
      refine ⟨le_trans h1 hd, ?_, Or.inr ?_⟩
      · intro q d hq
        cases q with
        | zero => simp at hq; subst hq; exact h1
        | succ q => simp at hq; exact h2 q d hq
      · rcases h3 with ⟨e1, hall⟩ | ⟨q, hq, ht, hlater⟩
        · refine ⟨0, by simp [e1], by simp [e1], ?_⟩
          intro q1 d hlt hq1
          cases q1 with
          | zero => omega
          | succ q1 =>
            simp at hq1
            rw [e1]
            exact hall q1 d hq1
        · refine ⟨q + 1, by simpa using hq, by rw [ht]; push_cast; ring, ?_⟩
          intro q1 d hlt hq1
          cases q1 with
          | zero => omega
          | succ q1 =>
            simp at hq1
            exact hlater q1 d (by omega) hq1
    · have e : scanVal it (d0 :: ds) (dMin, t) = scanVal (it + 1) ds (dMin, t) := by
        simp only [scanVal, if_neg hd]
      rw [e]
      rcases ih (it + 1) dMin t with ⟨h1, h2, h3⟩
      refine ⟨h1, ?_, ?_⟩
      · intro q d hq
        cases q with
        | zero => simp at hq; subst hq; omega
        | succ q => simp at hq; exact h2 q d hq
      · rcases h3 with ⟨e1, hall⟩ | ⟨q, hq, ht, hlater⟩
        · left
          refine ⟨e1, ?_⟩
          intro q d hq
          cases q with
          | zero => simp at hq; subst hq; omega
          | succ q => simp at hq; exact hall q d hq
        · right
          refine ⟨q + 1, by simpa using hq, by rw [ht]; push_cast; ring, ?_⟩
          intro q1 d hlt hq1
          cases q1 with
          | zero => omega
          | succ q1 =>
            simp at hq1
            exact hlater q1 d (by omega) hq1

section
variable {α : Type} [DecidableEq α] (v1 v2 v3 : List α)

theorem lev3_le_sum : ∀ (n i j k : Nat), i + j + k ≤ n →
    lev3 v1 v2 v3 i j k ≤ (i : Int) + (j : Int) + (k : Int) := by
  intro n
  induction n with
  | zero =>
    intro i j k h
    rw [lev3_face v1 v2 v3 i j k (by omega)]
  | succ n ih =>
    intro i j k h
    by_cases hf : i = 0 ∨ j = 0 ∨ k = 0
    · rw [lev3_face v1 v2 v3 i j k hf]
    · rw [lev3_inner v1 v2 v3 i j k (by omega) (by omega) (by omega)]
      have h0 := (scanVal_spec (candidates v1 v2 v3 i j k) 0 INT_MAX (-1)).2.1 0
        (lev3 v1 v2 v3 (i - 1) j k + 1) (by simp [candidates])
      have h1 := ih (i - 1) j k (by omega)
      omega

/-- The prepared table of a fresh instance satisfies the invariant. -/
theorem prepare_fresh_inv3 :
    ∃ m0, prepare fresh v1.length v2.length v3.length = some m0 ∧ Inv v1 v2 v3 m0 ∧
      ∀ a b c, getCell m0 a b c =
        if a ≤ v1.length ∧ b ≤ v2.length ∧ c ≤ v3.length
        then some ⟨-1, axisTrace a b c⟩ else none := by
  rcases prepare_fresh3 v1.length v2.length v3.length with ⟨m0, e0, g0⟩
  have hunset : ∀ a b c, ¬ IsSet m0 a b c := by
    intro a b c hs
    rcases hs with ⟨t, ht, hd⟩
    rw [g0] at ht
    split_ifs at ht
    · cases ht; exact hd rfl
  refine ⟨m0, e0, ⟨?_, ?_, ?_, ?_⟩, g0⟩
  · intro i j k hi hj hk
    rw [g0, if_pos ⟨hi, hj, hk⟩]
    exact ⟨_, rfl⟩
  · intro i j k c hi hj hk _ hc
    rw [g0, if_pos ⟨hi, hj, hk⟩] at hc
    cases hc
    exact ⟨rfl, Or.inl rfl⟩
  · intro i j k c hi1 hj1 _ hi hj hk hc
    rw [g0, if_pos ⟨hi, hj, hk⟩] at hc
    cases hc
    exact Or.inl ⟨rfl, axisTrace_inner k hi1 hj1⟩
  · intro i j k _ _ _ _ _ _ hs
    exact absurd hs (hunset i j k)

/-- The table of a fresh instance after `recurse(len1, len2, len3)`. -/
theorem recurse_fresh :
    ∃ m0 m1, prepare fresh v1.length v2.length v3.length = some m0 ∧
      recurse v1 v2 v3 (v1.length + v2.length + v3.length + 1)
        v1.length v2.length v3.length m0 =
        some (lev3 v1 v2 v3 v1.length v2.length v3.length, m1) ∧
      Inv v1 v2 v3 m1 ∧ IsSet m1 v1.length v2.length v3.length := by
  rcases prepare_fresh_inv3 v1 v2 v3 with ⟨m0, e0, inv0, _⟩
  rcases recurse_spec3 v1 v2 v3 (v1.length + v2.length + v3.length + 1)
    v1.length v2.length v3.length m0 inv0 (le_refl _) (le_refl _) (le_refl _) (by omega) with
    ⟨m1, e1, inv1, _, s1⟩
  exact ⟨m0, m1, e0, e1, inv1, s1⟩

theorem Inv.isSet_box {m : Array3D} (hinv : Inv v1 v2 v3 m) {i j k : Nat}
    (hi : i ≤ v1.length) (hj : j ≤ v2.length) (hk : k ≤ v3.length) (hs : IsSet m i j k) :
    ∀ a b c, 1 ≤ a → a ≤ i → 1 ≤ b → b ≤ j → 1 ≤ c → c ≤ k → IsSet m a b c := by
  have h1 : ∀ n a, i - a = n → 1 ≤ a → a ≤ i → 1 ≤ j → 1 ≤ k → IsSet m a j k := by
    intro n
    induction n with
    | zero =>
      intro a hn _ ha _ _
      have : a = i := by omega
      rw [this]; exact hs
    | succ n ih =>
      intro a hn ha1 ha hj1 hk1
      have h := ih (a + 1) (by omega) (by omega) (by omega) hj1 hk1
      exact (hinv.down (a + 1) j k (by omega) hj1 hk1 (by omega) hj hk h).1 (by omega)
  have h2 : ∀ n a b, j - b = n → 1 ≤ a → a ≤ i → 1 ≤ b → b ≤ j → 1 ≤ k → IsSet m a b k := by
    intro n
    induction n with
    | zero =>
      intro a b hn ha1 ha hb1 hb hk1
      have : b = j := by omega
      rw [this]; exact h1 (i - a) a rfl ha1 ha (by omega) hk1
    | succ n ih =>
      intro a b hn ha1 ha hb1 hb hk1
      have h := ih a (b + 1) (by omega) ha1 ha (by omega) (by omega) hk1
      exact (hinv.down a (b + 1) k ha1 (by omega) hk1 (by omega) (by omega) hk h).2.1 (by omega)
  have h3 : ∀ n a b c, k - c = n → 1 ≤ a → a ≤ i → 1 ≤ b → b ≤ j → 1 ≤ c → c ≤ k →
      IsSet m a b c := by
    intro n
    induction n with
    | zero =>
      intro a b c hn ha1 ha hb1 hb hc1 hc
      have : c = k := by omega
      rw [this]; exact h2 (j - b) a b rfl ha1 ha hb1 hb (by omega)
    | succ n ih =>
      intro a b c hn ha1 ha hb1 hb hc1 hc
      have h := ih a b (c + 1) (by omega) ha1 ha hb1 hb (by omega) (by omega)
      exact (hinv.down a b (c + 1) ha1 hb1 (by omega) (by omega) (by omega) (by omega) h).2.2
        (by omega)
  intro a b c ha1 ha hb1 hb hc1 hc
  exact h3 (k - c) a b c rfl ha1 ha hb1 hb hc1 hc

end

theorem RowOK.empty : RowOK 0 [] := by
  simp [RowOK]

theorem RowOK.adv {a : Nat} {p : List Int} (h : RowOK a p) : RowOK (a + 1) ((a : Int) :: p) := by
  unfold RowOK at h ⊢
  have hne : ((a : Int) ≠ -1) := by omega
  rw [Levenshtein.range_map_reverse_succ, ← h]
  simp [hne]

theorem RowOK.gap {a : Nat} {p : List Int} (h : RowOK a p) : RowOK a (-1 :: p) := by
  unfold RowOK at h ⊢
  rw [← h]
  simp

/-- One row of one iteration of the back trace: with the flag set the index
`a - 1` is emitted and `a` steps down, else a gap is emitted. -/
theorem RowOK.step {a : Nat} {p : List Int} (e : Bool) (h1 : e = true → 1 ≤ a)
    (h : RowOK (a - (if e then 1 else 0)) p) :
    RowOK a ((if e then (a : Int) - 1 else -1) :: p) := by
  cases e with
  | false => simpa using h.gap
  | true =>
    obtain ⟨a0, rfl⟩ : ∃ a0, a = a0 + 1 := ⟨a - 1, by have := h1 rfl; omega⟩
    have e1 : (((a0 + 1 : Nat) : Int) - 1) = (a0 : Int) := by push_cast; ring
    simp only [if_true, Nat.add_sub_cancel, e1] at h ⊢
    exact h.adv

/-- The rows of the table `step`: transition `t` advances the sequences whose flag is set. -/
theorem stepAt_cases (t : Int) :
    stepAt t 0 = none ∨
    ∃ e1 e2 e3 : Bool,
      stepAt t 0 = some (if e1 then 1 else 0) ∧ stepAt t 1 = some (if e2 then 1 else 0) ∧
      stepAt t 2 = some (if e3 then 1 else 0) ∧ (e1 = true ∨ e2 = true ∨ e3 = true) ∧
      (t = 0 → e1 = true ∧ e2 = false ∧ e3 = false) ∧
      (t = 1 → e1 = false ∧ e2 = true ∧ e3 = false) ∧
      (t = 2 → e1 = false ∧ e2 = false ∧ e3 = true) ∧
      0 ≤ t ∧ t < 7 := by
  by_cases hr : 0 ≤ t ∧ t < 7
  · right
    obtain ⟨n, rfl⟩ : ∃ n : Nat, t = (n : Int) := ⟨t.toNat, by omega⟩
    have hn : n < 7 := by omega
    interval_cases n
    · exact ⟨true, false, false, by decide, by decide, by decide, by decide, by decide,
        by decide, by decide, by decide, by decide⟩
    · exact ⟨false, true, false, by decide, by decide, by decide, by decide, by decide,
        by decide, by decide, by decide, by decide⟩
    · exact ⟨false, false, true, by decide, by decide, by decide, by decide, by decide,
        by decide, by decide, by decide, by decide⟩
    · exact ⟨true, true, false, by decide, by decide, by decide, by decide, by decide,
        by decide, by decide, by decide, by decide⟩
    · exact ⟨true, false, true, by decide, by decide, by decide, by decide, by decide,
        by decide, by decide, by decide, by decide⟩
    · exact ⟨false, true, true, by decide, by decide, by decide, by decide, by decide,
        by decide, by decide, by decide, by decide⟩
    · exact ⟨true, true, true, by decide, by decide, by decide, by decide, by decide,
        by decide, by decide, by decide, by decide⟩
  · left
    unfold stepAt intIndex
    by_cases hneg : t < 0
    · simp [hneg]
    · have h7 : 7 ≤ t.toNat := by omega
      have hnone : step[t.toNat]? = none := by
        rw [List.getElem?_eq_none]
        simpa [step] using h7
      simp [hneg, hnone]

theorem getCell_rows {m : Array3D} {a b c : Nat} {cell : Tuple}
    (h : getCell m a b c = some cell) :
    ∃ p2 p1, m[a]? = some p2 ∧ p2[b]? = some p1 ∧ p1[c]? = some cell := by
  rw [getCell_eq3] at h
  cases h2 : m[a]? with
  | none => simp [h2] at h
  | some p2 =>
    simp only [h2] at h
    cases h1 : p2[b]? with
    | none => simp [h1] at h
    | some p1 =>
      simp only [h1] at h
      exact ⟨p2, p1, rfl, h1, h⟩

/-- One iteration of the back trace at a cell whose trace selects the flags `e1 e2 e3`. -/
theorem backtrace_succ {m : Array3D} {a b c : Nat} {cell : Tuple}
    (hc : getCell m a b c = some cell) (hpos : 0 < a + b + c) (e1 e2 e3 : Bool)
    (h1 : stepAt cell.trace 0 = some (if e1 then 1 else 0))
    (h2 : stepAt cell.trace 1 = some (if e2 then 1 else 0))
    (h3 : stepAt cell.trace 2 = some (if e3 then 1 else 0))
    (fuel : Nat) (acc1 acc2 acc3 : List Int) :
    backtrace m (fuel + 1) (a : Int) (b : Int) (c : Int) acc1 acc2 acc3 =
      backtrace m fuel ((a : Int) - (if e1 then 1 else 0)) ((b : Int) - (if e2 then 1 else 0))
        ((c : Int) - (if e3 then 1 else 0))
        (acc1 ++ [if e1 then (a : Int) - 1 else -1])
        (acc2 ++ [if e2 then (b : Int) - 1 else -1])
        (acc3 ++ [if e3 then (c : Int) - 1 else -1]) := by
  rcases getCell_rows hc with ⟨p2, p1, r2, r1, r0⟩
  have hp : ((a : Int) + (b : Int) + (c : Int) > 0) := by omega
  rw [backtrace, if_pos hp, intIndex_natCast, r2]
  simp only [intIndex_natCast, r1, r0, h1, h2, h3]
  cases e1 <;> cases e2 <;> cases e3 <;> simp [intIndex]

section
variable {α : Type} [DecidableEq α] (v1 v2 v3 : List α)

/-- On a table that satisfies the invariant, whenever the back trace returns,
each of the three rows it emitted holds, apart from gaps, the indices of its
sequence in descending order, and the three rows have the same length. -/
theorem backtrace_valid {m : Array3D} (hinv : Inv v1 v2 v3 m) :
    ∀ (fuel a b c : Nat) (acc1 acc2 acc3 : List Int) (r : List Int × List Int × List Int),
      a ≤ v1.length → b ≤ v2.length → c ≤ v3.length →
      backtrace m fuel (a : Int) (b : Int) (c : Int) acc1 acc2 acc3 = some r →
      ∃ p1 p2 p3, r = (acc1 ++ p1, acc2 ++ p2, acc3 ++ p3) ∧
        p1.length = p2.length ∧ p2.length = p3.length ∧
        RowOK a p1 ∧ RowOK b p2 ∧ RowOK c p3 := by
  intro fuel
  induction fuel with
  | zero =>
    intro a b c acc1 acc2 acc3 r _ _ _ h
    rw [backtrace] at h
    by_cases hp : ((a : Int) + (b : Int) + (c : Int) > 0)
    · simp [hp] at h
    · simp only [if_neg hp, Option.some.injEq] at h
      have ha : a = 0 := by omega
      have hb : b = 0 := by omega
      have hc : c = 0 := by omega
      subst ha; subst hb; subst hc
      exact ⟨[], [], [], by simp [← h], rfl, rfl, RowOK.empty, RowOK.empty, RowOK.empty⟩
  | succ fuel ih =>
    intro a b c acc1 acc2 acc3 r ha hb hc h
    by_cases hp : 0 < a + b + c
    · rcases hinv.cell a b c ha hb hc with ⟨cell, hcell⟩
      rcases stepAt_cases cell.trace with hnone | ⟨e1, e2, e3, s1, s2, s3, _, t0, t1, t2, _, _⟩
      · exfalso
        rcases getCell_rows hcell with ⟨p2, p1, r2, r1, r0⟩
        have hpi : ((a : Int) + (b : Int) + (c : Int) > 0) := by omega
        rw [backtrace, if_pos hpi, intIndex_natCast, r2] at h
        simp [intIndex_natCast, r1, r0, hnone] at h
      · rw [backtrace_succ hcell hp e1 e2 e3 s1 s2 s3] at h
        -- a sequence that advances has an element left
        have hax : (a = 0 ∨ b = 0 ∨ c = 0) → cell.trace = axisTrace a b c := fun hz =>
          (hinv.outer a b c cell ha hb hc hz hcell).1
        have hflags : (e1 = true → 1 ≤ a) ∧ (e2 = true → 1 ≤ b) ∧ (e3 = true → 1 ≤ c) := by
          by_cases hz : a = 0 ∨ b = 0 ∨ c = 0
          · have hax2 := hax hz
            unfold axisTrace at hax2
            split_ifs at hax2 with c1 c2 c3
            · rcases t2 hax2 with ⟨rfl, rfl, rfl⟩
              exact ⟨by simp, by simp, fun _ => by omega⟩
            · rcases t1 hax2 with ⟨rfl, rfl, rfl⟩
              exact ⟨by simp, fun _ => by omega, by simp⟩
            · rcases t0 hax2 with ⟨rfl, rfl, rfl⟩
              exact ⟨fun _ => by omega, by simp, by simp⟩
            · omega
          · exact ⟨fun _ => by omega, fun _ => by omega, fun _ => by omega⟩
        rcases hflags with ⟨f1, f2, f3⟩
        have ca : ((a : Int) - (if e1 then 1 else 0)) = ((a - (if e1 then 1 else 0) : Nat) : Int) := by
          cases e1
          · simp
          · have := f1 rfl; simp; omega
        have cb : ((b : Int) - (if e2 then 1 else 0)) = ((b - (if e2 then 1 else 0) : Nat) : Int) := by
          cases e2
          · simp
          · have := f2 rfl; simp; omega
        have cc : ((c : Int) - (if e3 then 1 else 0)) = ((c - (if e3 then 1 else 0) : Nat) : Int) := by
          cases e3
          · simp
          · have := f3 rfl; simp; omega
        rw [ca, cb, cc] at h
        rcases ih _ _ _ _ _ _ r (le_trans (Nat.sub_le _ _) ha) (le_trans (Nat.sub_le _ _) hb)
          (le_trans (Nat.sub_le _ _) hc) h with ⟨p1, p2, p3, er, l12, l23, o1, o2, o3⟩
        refine ⟨_ :: p1, _ :: p2, _ :: p3, ?_, by simp [l12], by simp [l23],
          RowOK.step e1 f1 o1, RowOK.step e2 f2 o2, RowOK.step e3 f3 o3⟩
        rw [er]
        simp
    · rw [backtrace] at h
      have hpi : ¬ ((a : Int) + (b : Int) + (c : Int) > 0) := by omega
      simp only [if_neg hpi, Option.some.injEq] at h
      have ha : a = 0 := by omega
      have hb : b = 0 := by omega
      have hc : c = 0 := by omega
      subst ha; subst hb; subst hc
      exact ⟨[], [], [], by simp [← h], rfl, rfl, RowOK.empty, RowOK.empty, RowOK.empty⟩

/-- Along the third axis the back trace emits a gap for the first two rows
and the index for the third, down to the origin. -/
theorem backtrace_axis3 {m : Array3D} (hinv : Inv v1 v2 v3 m) :
    ∀ (fuel c : Nat) (acc1 acc2 acc3 : List Int), c ≤ v3.length → c ≤ fuel →
      backtrace m fuel (0 : Int) (0 : Int) (c : Int) acc1 acc2 acc3 =
        some (acc1 ++ List.replicate c (-1), acc2 ++ List.replicate c (-1),
          acc3 ++ ((List.range c).map Int.ofNat).reverse) := by
  intro fuel
  induction fuel with
  | zero =>
    intro c acc1 acc2 acc3 _ hf
    have hc : c = 0 := by omega
    subst hc
    simp [backtrace]
  | succ fuel ih =>
    intro c acc1 acc2 acc3 hc hf
    cases c with
    | zero => simp [backtrace]
    | succ c =>
      rcases hinv.cell 0 0 (c + 1) (Nat.zero_le _) (Nat.zero_le _) hc with ⟨cell, hcell⟩
      have ht : cell.trace = 2 := by
        rw [(hinv.outer 0 0 (c + 1) cell (Nat.zero_le _) (Nat.zero_le _) hc (Or.inl rfl) hcell).1]
        simp [axisTrace]
      have h := backtrace_succ hcell (by omega) false false true
        (by rw [ht]; decide) (by rw [ht]; decide) (by rw [ht]; decide) fuel acc1 acc2 acc3
      have e : (((c + 1 : Nat) : Int) - 1) = (c : Int) := by push_cast; ring
      simp only [Nat.cast_zero, Bool.false_eq_true, if_false, if_true, sub_zero, e] at h
      rw [h, ih c _ _ _ (by omega) (by omega), Levenshtein.range_map_reverse_succ]
      simp [List.replicate_succ]

end

theorem RowOK.forward {α : Type} (v : List α) {p : List Int} (h : RowOK v.length p) :
    p.reverse.filter (fun x => decide (x ≠ -1)) = (List.range v.length).map Int.ofNat ∧
    p.reverse.filterMap (intIndex v) = v := by
  unfold RowOK at h
  have h1 : p.reverse.filter (fun x => decide (x ≠ -1)) =
      (List.range v.length).map Int.ofNat := by
    rw [List.filter_reverse, h, List.reverse_reverse]
  exact ⟨h1, by rw [Levenshtein.filterMap_intIndex, h1, Levenshtein.replay_range]⟩

end Levenshtein3D

/-! ## The claims on the two-sequence aligner -/

namespace Levenshtein

/-- C1. For every pair of sequences the value `recurse(len1, len2)` returns
inside `ComputeMinEdit` on a fresh instance is the minimum total cost over all
alignments of `v1` with `v2`: some alignment has that cost and none is cheaper. -/
theorem recurse_optimal {α : Type} [DecidableEq α] (v1 v2 : List α) :
    ∃ m0 m1 d, prepare fresh v1.length v2.length = some m0 ∧
      recurse v1 v2 (v1.length + v2.length + 1) v1.length v2.length m0 = some (d, m1) ∧
      (∃ cs c, alignCost cs v1 v2 = some c ∧ (c : Int) = d) ∧
      (∀ cs c, alignCost cs v1 v2 = some c → d ≤ (c : Int)) := by
  rcases computeMinEdit_fresh v1 v2 with ⟨m0, m1, _, _, e0, e1, _⟩
  exact ⟨m0, m1, _, e0, e1, (lev_optimal v1 v2).1, (lev_optimal v1 v2).2⟩

/-- C2. On a fresh instance `ComputeMinEdit` succeeds and the columns
`(align1[p], align2[p])` it produces have total cost equal to the distance
`recurse(len1, len2)` computed in the same call. -/
theorem ComputeMinEdit_cost {α : Type} [DecidableEq α] (v1 v2 : List α) :
    ∃ s m0 m1 d, ComputeMinEdit fresh v1 v2 = some s ∧
      prepare fresh v1.length v2.length = some m0 ∧
      recurse v1 v2 (v1.length + v2.length + 1) v1.length v2.length m0 = some (d, m1) ∧
      alignmentCost v1 v2 s.align1 s.align2 = d := by
  rcases computeMinEdit_fresh v1 v2 with ⟨m0, m1, p1, p2, e0, e1, _, _, _, ok, e3⟩
  refine ⟨_, m0, m1, _, e3, e0, e1, ?_⟩
  show alignmentCost v1 v2 p1.reverse p2.reverse = _
  rw [← ok.cost]
  unfold alignmentCost
  rw [← List.reverse_zipWith ok.len, List.sum_reverse]

/-- C3. On a fresh instance `ComputeMinEdit` succeeds; deleting the gaps `-1`
from `align1` leaves `0, 1, ..., len1 - 1` and from `align2` leaves
`0, 1, ..., len2 - 1`; replaying each row (reading the element at every
non-gap index) gives back `v1` and `v2`. -/
theorem ComputeMinEdit_replay {α : Type} [DecidableEq α] (v1 v2 : List α) :
    ∃ s, ComputeMinEdit fresh v1 v2 = some s ∧
      s.align1.filter (fun x => decide (x ≠ -1)) = (List.range v1.length).map Int.ofNat ∧
      s.align2.filter (fun x => decide (x ≠ -1)) = (List.range v2.length).map Int.ofNat ∧
      s.align1.filterMap (intIndex v1) = v1 ∧
      s.align2.filterMap (intIndex v2) = v2 := by
  rcases computeMinEdit_fresh v1 v2 with ⟨m0, m1, p1, p2, _, _, _, _, _, ok, e3⟩
  have h1 : p1.reverse.filter (fun x => decide (x ≠ -1)) = (List.range v1.length).map Int.ofNat := by
    rw [List.filter_reverse, ok.idx1, List.reverse_reverse]
  have h2 : p2.reverse.filter (fun x => decide (x ≠ -1)) = (List.range v2.length).map Int.ofNat := by
    rw [List.filter_reverse, ok.idx2, List.reverse_reverse]
  refine ⟨_, e3, h1, h2, ?_, ?_⟩
  · show p1.reverse.filterMap (intIndex v1) = v1
    rw [filterMap_intIndex, h1, replay_range]
  · show p2.reverse.filterMap (intIndex v2) = v2
    rw [filterMap_intIndex, h2, replay_range]

/-- C4. On a fresh instance `ComputeMinEdit` succeeds, `align1` and `align2`
have the same length, and at every position at least one of the two entries
is not the gap `-1` and is then an index into its sequence. -/
theorem ComputeMinEdit_columns {α : Type} [DecidableEq α] (v1 v2 : List α) :
    ∃ s, ComputeMinEdit fresh v1 v2 = some s ∧
      s.align1.length = s.align2.length ∧
      ∀ (p : Nat) (x y : Int), s.align1[p]? = some x → s.align2[p]? = some y →
        (x ≠ -1 ∧ 0 ≤ x ∧ x < (v1.length : Int)) ∨ (y ≠ -1 ∧ 0 ≤ y ∧ y < (v2.length : Int)) := by
  rcases computeMinEdit_fresh v1 v2 with ⟨m0, m1, p1, p2, _, _, _, _, _, ok, e3⟩
  refine ⟨_, e3, ?_, ?_⟩
  · show p1.reverse.length = p2.reverse.length
    simp [ok.len]
  · intro p x y hx hy
    have hx : p1.reverse[p]? = some x := hx
    have hy : p2.reverse[p]? = some y := hy
    have hp1 : p < p1.length := by
      rcases List.getElem?_eq_some.1 hx with ⟨h, _⟩
      simpa using h
    have hp2 : p < p2.length := by rw [← ok.len]; exact hp1
    rw [List.getElem?_reverse hp1] at hx
    rw [List.getElem?_reverse hp2, ← ok.len] at hy
    rcases ok.nogap _ x y hx hy with h | h
    · exact Or.inl ⟨h, ok.mem_range1 v1 v2 (List.getElem?_mem hx) h⟩
    · exact Or.inr ⟨h, ok.mem_range2 v1 v2 (List.getElem?_mem hy) h⟩

/-- C5. On a fresh instance, for every pair of sequences (empty ones
included), the table after `recurse` has a cell with trace code 1, 2 or 3 at
every `(i, j)` other than `(0, 0)`, the back trace with fuel `len1 + len2`
returns a result, and `ComputeMinEdit` returns a result: no access leaves the
table and the `assert(false)` branch is not reached. -/
theorem ComputeMinEdit_never_fails {α : Type} [DecidableEq α] (v1 v2 : List α) :
    ∃ m0 m1 d r s, prepare fresh v1.length v2.length = some m0 ∧
      recurse v1 v2 (v1.length + v2.length + 1) v1.length v2.length m0 = some (d, m1) ∧
      (∀ i j, i ≤ v1.length → j ≤ v2.length → 0 < i + j →
        ∃ c, getCell m1 i j = some c ∧ (c.trace = 1 ∨ c.trace = 2 ∨ c.trace = 3)) ∧
      backtrace m1 (v1.length + v2.length) (v1.length : Int) (v2.length : Int) [] [] = some r ∧
      ComputeMinEdit fresh v1 v2 = some s := by
  rcases computeMinEdit_fresh v1 v2 with ⟨m0, m1, p1, p2, e0, e1, inv1, set1, e2, _, e3⟩
  refine ⟨m0, m1, _, _, _, e0, e1, ?_, e2, e3⟩
  intro i j hi hj hpos
  rcases inv1.cell i j hi hj with ⟨c, hc⟩
  refine ⟨c, hc, ?_⟩
  by_cases hj0 : j = 0
  · subst hj0
    exact Or.inl (inv1.col0 i c (by omega) hi hc)
  by_cases hi0 : i = 0
  · subst hi0
    exact Or.inr (Or.inl (inv1.row0 j c (by omega) hj hc))
  have hs := inv1.isSet_rect v1 v2 (le_refl _) (le_refl _) (set1 (by omega) (by omega))
    i j (by omega) hi (by omega) hj
  rcases hs with ⟨c2, hc2, hd⟩
  rw [hc] at hc2
  cases hc2
  rw [(inv1.memo i j c (by omega) (by omega) hi hj hc hd).2]
  exact levTrace_mem v1 v2 i j

/-- C8. For "intention" and "execution" `ComputeMinEdit` on a fresh instance
yields `align1 = [0,1,2,3,-1,4,5,6,7,8]` and `align2 = [-1,0,1,2,3,4,5,6,7,8]`,
the layout `inte*ntion` over `*execution`. -/
theorem intention_execution_alignment :
    (ComputeMinEdit fresh "intention".toList "execution".toList).map
        (fun s => (s.align1, s.align2)) =
      some ([0, 1, 2, 3, -1, 4, 5, 6, 7, 8], [-1, 0, 1, 2, 3, 4, 5, 6, 7, 8]) := by
  decide!

/-- C9, as amended. For "intention" and "execution" the cost `recurse(9, 9)`
computes is 8. -/
theorem intention_execution_cost :
    distance "intention".toList "execution".toList = some 8 := by
  decide!

/-- C9, the claim as stated fails: the cost `recurse(9, 9)` computes for
"intention" and "execution" is not 10. -/
theorem intention_execution_cost_ne_ten :
    distance "intention".toList "execution".toList ≠ some 10 := by
  decide!

/-- C11. The distance a fresh instance computes for `(A, B)` equals the one
computed for `(B, A)`. -/
theorem distance_symm {α : Type} [DecidableEq α] (A B : List α) :
    ∃ d, distance A B = some d ∧ distance B A = some d := by
  refine ⟨lev A B A.length B.length, distance_eq_lev A B, ?_⟩
  rw [distance_eq_lev, lev_symm A B (A.length + B.length) A.length B.length (le_refl _)]

/-- C12. Aligning a sequence `A` of length `n` with itself on a fresh instance
gives distance 0 and `align1 = align2 = [0, 1, ..., n - 1]`, without a gap. -/
theorem ComputeMinEdit_self {α : Type} [DecidableEq α] (A : List α) :
    distance A A = some 0 ∧
    ∃ s, ComputeMinEdit fresh A A = some s ∧
      s.align1 = (List.range A.length).map Int.ofNat ∧
      s.align2 = (List.range A.length).map Int.ofNat := by
  constructor
  · rw [distance_eq_lev, lev_self]
  · rcases computeMinEdit_fresh A A with ⟨m0, m1, p1, p2, _, _, _, _, _, ok, e3⟩
    rcases ok.diagonal A A (lev_self A A.length) with ⟨e1, e2⟩
    refine ⟨_, e3, ?_, ?_⟩
    · show p1.reverse = _
      rw [e1, List.reverse_reverse]
    · show p2.reverse = _
      rw [e2, List.reverse_reverse]

/-- C13. Aligning `A` of length `n` with the empty sequence on a fresh
instance gives distance `n`, `align1 = [0, ..., n - 1]` and `align2` equal to
`n` gaps; aligning the empty sequence with `B` of length `m` gives distance
`m`, `align1` equal to `m` gaps and `align2 = [0, ..., m - 1]`. -/
theorem ComputeMinEdit_empty {α : Type} [DecidableEq α] (A B : List α) :
    (distance A [] = some (A.length : Int) ∧
      ∃ s, ComputeMinEdit fresh A [] = some s ∧
        s.align1 = (List.range A.length).map Int.ofNat ∧
        s.align2 = List.replicate A.length (-1)) ∧
    (distance [] B = some (B.length : Int) ∧
      ∃ s, ComputeMinEdit fresh [] B = some s ∧
        s.align1 = List.replicate B.length (-1) ∧
        s.align2 = (List.range B.length).map Int.ofNat) := by
  refine ⟨⟨?_, ?_⟩, ⟨?_, ?_⟩⟩
  · rw [distance_eq_lev]
    simp [lev_zero_right]
  · rcases computeMinEdit_fresh A [] with ⟨m0, m1, p1, p2, _, _, _, _, _, ok, e3⟩
    rcases PathOK.right_empty A [] ok with ⟨e1, e2⟩
    refine ⟨_, e3, ?_, ?_⟩
    · show p1.reverse = _
      rw [e1, List.reverse_reverse]
    · show p2.reverse = _
      rw [e2, List.reverse_replicate]
  · rw [distance_eq_lev]
    simp [lev_zero_left]
  · rcases computeMinEdit_fresh [] B with ⟨m0, m1, p1, p2, _, _, _, _, _, ok, e3⟩
    rcases PathOK.left_empty [] B ok with ⟨e1, e2⟩
    refine ⟨_, e3, ?_, ?_⟩
    · show p1.reverse = _
      rw [e1, List.reverse_replicate]
    · show p2.reverse = _
      rw [e2, List.reverse_reverse]

/-- C15. After `recurse(len1, len2)` on a fresh instance every inner cell
`(i, j)` holds the minimum of `d1 = D(i-1, j) + 1`, `d2 = D(i, j-1) + 1` and
`d3 = D(i-1, j-1) + (0 or 2)`, and its trace is 3 when `d3` is that minimum,
else 1 when `d1` is, else 2; here `D(a, b)` is `lev v1 v2 a b`, the value a
call `recurse(a, b)` on that table returns. For `"a"` and `"b"` the output is
the single column `(0, 0)`. -/
theorem tie_break {α : Type} [DecidableEq α] (v1 v2 : List α) :
    (∃ m0 m1 d, prepare fresh v1.length v2.length = some m0 ∧
      recurse v1 v2 (v1.length + v2.length + 1) v1.length v2.length m0 = some (d, m1) ∧
      (∀ a b, a ≤ v1.length → b ≤ v2.length →
        ∃ m2, recurse v1 v2 (a + b + 1) a b m1 = some (lev v1 v2 a b, m2)) ∧
      ∀ i j, 1 ≤ i → i ≤ v1.length → 1 ≤ j → j ≤ v2.length →
        ∃ c, getCell m1 i j = some c ∧
          c.distance = min3 (lev v1 v2 (i - 1) j + 1) (lev v1 v2 i (j - 1) + 1)
            (lev v1 v2 (i - 1) (j - 1) + (if v1[i - 1]? = v2[j - 1]? then 0 else 2)) ∧
          c.trace =
            (if c.distance =
                lev v1 v2 (i - 1) (j - 1) + (if v1[i - 1]? = v2[j - 1]? then 0 else 2) then 3
             else if c.distance = lev v1 v2 (i - 1) j + 1 then 1 else 2)) ∧
    (ComputeMinEdit fresh "a".toList "b".toList).map (fun s => (s.align1, s.align2)) =
      some ([0], [0]) := by
  constructor
  · rcases computeMinEdit_fresh v1 v2 with ⟨m0, m1, p1, p2, e0, e1, inv1, set1, _, _, _⟩
    refine ⟨m0, m1, _, e0, e1, ?_, ?_⟩
    · intro a b ha hb
      rcases recurse_spec v1 v2 (a + b + 1) a b m1 inv1 ha hb (by omega) with ⟨m2, e, _⟩
      exact ⟨m2, e⟩
    · intro i j hi1 hi hj1 hj
      have hs := inv1.isSet_rect v1 v2 (le_refl _) (le_refl _) (set1 (by omega) (by omega))
        i j hi1 hi hj1 hj
      rcases hs with ⟨c, hc, hd⟩
      rcases inv1.memo i j c hi1 hj1 hi hj hc hd with ⟨ed, et⟩
      refine ⟨c, hc, ?_, ?_⟩
      · rw [ed]
        obtain ⟨i0, rfl⟩ : ∃ i0, i = i0 + 1 := ⟨i - 1, by omega⟩
        obtain ⟨j0, rfl⟩ : ∃ j0, j = j0 + 1 := ⟨j - 1, by omega⟩
        simp only [Nat.add_sub_cancel]
        rw [lev_succ]
      · rw [et, ed]
        rfl
  · decide!

/-- C19, the claim as stated fails: calling `ComputeMinEdit("ab", "")` twice
on one instance does not leave `align1 = [0, 1, 0, 1]`. -/
theorem reuse_not_appended :
    ((ComputeMinEdit fresh "ab".toList "".toList).bind
        (fun s => ComputeMinEdit s "ab".toList "".toList)).map (fun s => s.align1) ≠
      some [0, 1, 0, 1] := by
  decide!

/-- C19, as amended. When `ComputeMinEdit` is called on an instance `s` whose
`align1` and `align2` were not cleared and returns the instance `s1`, then
`s1.align1` is the forward-order row of this call (the reverse of what its
back trace emits) followed by the reverse of `s.align1`, and likewise for
`align2`. -/
theorem ComputeMinEdit_reuse {α : Type} [DecidableEq α] (s s1 : Levenshtein) (v1 v2 : List α)
    (h : ComputeMinEdit s v1 v2 = some s1) :
    ∃ p1 p2, backtrace s1.m (v1.length + v2.length) (v1.length : Int) (v2.length : Int) [] []
        = some (p1, p2) ∧
      s1.align1 = p1.reverse ++ s.align1.reverse ∧
      s1.align2 = p2.reverse ++ s.align2.reverse := by
  unfold ComputeMinEdit at h
  simp only [] at h
  cases h0 : prepare s v1.length v2.length with
  | none => simp [h0] at h
  | some m2 =>
    cases h1 : recurse v1 v2 (v1.length + v2.length + 1) v1.length v2.length m2 with
    | none => simp [h0, h1] at h
    | some r =>
      rcases r with ⟨d, m3⟩
      simp only [h0, h1] at h
      rw [backtrace_acc] at h
      cases h2 : backtrace m3 (v1.length + v2.length) (v1.length : Int) (v2.length : Int) [] [] with
      | none => simp [h2] at h
      | some p =>
        rcases p with ⟨p1, p2⟩
        simp only [h2, Option.map_some', Option.some.injEq] at h
        subst h
        exact ⟨p1, p2, h2, by simp, by simp⟩

/-- C19, an instance of the amended claim: the second call with `"ab"` and
`""` on the instance left by the first one. -/
theorem ComputeMinEdit_reuse_witness :
    ComputeMinEdit (⟨[0, 1], [-1, -1], [[⟨-1, 2⟩], [⟨-1, 1⟩], [⟨-1, 1⟩]]⟩ : Levenshtein)
        "ab".toList "".toList =
      some ⟨[0, 1, 1, 0], [-1, -1, -1, -1], [[⟨-1, 2⟩], [⟨-1, 1⟩], [⟨-1, 1⟩]]⟩ ∧
    ∃ p1 p2, backtrace [[⟨-1, 2⟩], [⟨-1, 1⟩], [⟨-1, 1⟩]]
        ("ab".toList.length + "".toList.length) ("ab".toList.length : Int)
        ("".toList.length : Int) [] [] = some (p1, p2) ∧
      ([0, 1, 1, 0] : List Int) = p1.reverse ++ ([0, 1] : List Int).reverse ∧
      ([-1, -1, -1, -1] : List Int) = p2.reverse ++ ([-1, -1] : List Int).reverse :=
  ⟨by decide!,
    ComputeMinEdit_reuse ⟨[0, 1], [-1, -1], [[⟨-1, 2⟩], [⟨-1, 1⟩], [⟨-1, 1⟩]]⟩
      ⟨[0, 1, 1, 0], [-1, -1, -1, -1], [[⟨-1, 2⟩], [⟨-1, 1⟩], [⟨-1, 1⟩]]⟩
      "ab".toList "".toList (by decide!)⟩

/-- C20. The distance a fresh instance computes is `len1 + len2 - 2 * L`,
where `L` is the length of a longest common subsequence of `v1` and `v2`; it
has the parity of `len1 + len2` and lies between `|len1 - len2|` and
`len1 + len2`. -/
theorem distance_lcs {α : Type} [DecidableEq α] (v1 v2 : List α) :
    ∃ (L : Nat) (d : Int),
      (∃ s : List α, s.Sublist v1 ∧ s.Sublist v2 ∧ s.length = L) ∧
      (∀ s : List α, s.Sublist v1 → s.Sublist v2 → s.length ≤ L) ∧
      distance v1 v2 = some d ∧
      d = (v1.length : Int) + (v2.length : Int) - 2 * (L : Int) ∧
      d % 2 = ((v1.length : Int) + (v2.length : Int)) % 2 ∧
      |(v1.length : Int) - (v2.length : Int)| ≤ d ∧
      d ≤ (v1.length : Int) + (v2.length : Int) := by
  rcases (lev_optimal v1 v2).1 with ⟨cs, c, e, ec⟩
  rcases alignCost_sublist cs v1 v2 c e with ⟨s0, s1, s2, es⟩
  have hl1 := s1.length_le
  have hl2 := s2.length_le
  have hd : lev v1 v2 v1.length v2.length =
      (v1.length : Int) + (v2.length : Int) - 2 * (s0.length : Int) := by
    rw [← ec]; omega
  refine ⟨s0.length, _, ⟨s0, s1, s2, rfl⟩, ?_, distance_eq_lev v1 v2, hd, ?_, ?_, ?_⟩
  · intro s hs1 hs2
    rcases sublist_alignCost (v1.length + v2.length) v1 v2 s (le_refl _) hs1 hs2 with
      ⟨cs2, c2, e2, ec2⟩
    have := (lev_optimal v1 v2).2 cs2 c2 e2
    omega
  · rw [hd]; omega
  · rw [hd, abs_le]; constructor <;> omega
  · rw [hd]; omega

end Levenshtein

/-! ## The claims on the three-sequence aligner -/

namespace Levenshtein3D

/-- C6, the code at the failing inputs. With exactly one empty input
(`""`, `"a"`, `"b"`) the start cell `(0, 1, 1)` of the back trace holds
distance 2 and the unset trace code `-1`, and `ComputeMinEdit` fails on the
read `step[-1]`. The same happens with three non-empty inputs
(`"a"`, `"ab"`, `"b"`): the cell `(1, 2, 1)` records trace 5, which leads to
the cell `(1, 1, 0)`, whose trace code is `-1`. -/
theorem one_empty_input_fails :
    cellAfterRecurse "".toList "a".toList "b".toList 0 1 1 = some ⟨2, -1⟩ ∧
    ComputeMinEdit fresh "".toList "a".toList "b".toList = none ∧
    cellAfterRecurse "a".toList "ab".toList "b".toList 1 2 1 = some ⟨2, 5⟩ ∧
    cellAfterRecurse "a".toList "ab".toList "b".toList 1 1 0 = some ⟨2, -1⟩ ∧
    ComputeMinEdit fresh "a".toList "ab".toList "b".toList = none := by
  decide!

/-- C7, the code at the failing inputs. For `""`, `"a"`, `"a"` the value
`recurse(0, 1, 1)` returns is 2, although the single column that advances the
second and third sequence is an alignment of cost 0; for `"a"`, `"ab"`, `"b"`
the value `recurse(1, 2, 1)` returns is 2, although the two columns
`a a -` and `- b b` are an alignment of cost 0. -/
theorem distance_not_minimal :
    distance "".toList "a".toList "a".toList = some 2 ∧
    alignCost3 [Column3.s23] "".toList "a".toList "a".toList = some 0 ∧
    distance "a".toList "ab".toList "b".toList = some 2 ∧
    alignCost3 [Column3.s12, Column3.s23] "a".toList "ab".toList "b".toList = some 0 := by
  decide!

/-- C10. For "intention", "execution" and "extinction" `ComputeMinEdit` on a
fresh instance yields the three rows of the source comment,
`in**t*en**tion`, `**ex**e*cution` and `**exti*nc*tion`. -/
theorem intention_execution_extinction_alignment :
    (ComputeMinEdit fresh "intention".toList "execution".toList "extinction".toList).map
        (fun s => (s.align1, s.align2, s.align3)) =
      some ([0, 1, -1, -1, 2, -1, 3, 4, -1, -1, 5, 6, 7, 8],
            [-1, -1, 0, 1, -1, -1, 2, -1, 3, 4, 5, 6, 7, 8],
            [-1, -1, 0, 1, 2, 3, -1, 4, 5, -1, 6, 7, 8, 9]) := by
  decide!

/-- C16. When `len1 + len2 + len3` fits an `int`, after
`recurse(len1, len2, len3)` on a fresh instance every inner cell `(i, j, k)`
holds a trace `t` in `0..6` and a distance such that the distance is the
candidate cost of transition `t`, no candidate is smaller, and every
candidate with a higher index is larger: the trace is the highest-indexed
transition that reaches the minimum. The candidates are `candidates`, built
from `lev3 a b c`, the value a call `recurse(a, b, c)` on that table returns.
For `"a"`, `"b"`, `"c"` the cell `(1, 1, 1)` holds distance 3 and trace 5. -/
theorem tie_break_highest_index {α : Type} [DecidableEq α] (v1 v2 v3 : List α)
    (hfit : (v1.length : Int) + (v2.length : Int) + (v3.length : Int) ≤ INT_MAX) :
    (∃ m0 m1 d, prepare fresh v1.length v2.length v3.length = some m0 ∧
      recurse v1 v2 v3 (v1.length + v2.length + v3.length + 1)
        v1.length v2.length v3.length m0 = some (d, m1) ∧
      (∀ a b c, a ≤ v1.length → b ≤ v2.length → c ≤ v3.length →
        ∃ m2, recurse v1 v2 v3 (a + b + c + 1) a b c m1 = some (lev3 v1 v2 v3 a b c, m2)) ∧
      ∀ i j k, 1 ≤ i → i ≤ v1.length → 1 ≤ j → j ≤ v2.length → 1 ≤ k → k ≤ v3.length →
        ∃ (cell : Tuple) (t : Nat), getCell m1 i j k = some cell ∧
          cell.trace = (t : Int) ∧ t < 7 ∧
          (candidates v1 v2 v3 i j k)[t]? = some cell.distance ∧
          (∀ (q : Nat) (d : Int), (candidates v1 v2 v3 i j k)[q]? = some d →
            cell.distance ≤ d) ∧
          (∀ (q : Nat) (d : Int), t < q → (candidates v1 v2 v3 i j k)[q]? = some d →
            cell.distance < d)) ∧
    cellAfterRecurse "a".toList "b".toList "c".toList 1 1 1 = some ⟨3, 5⟩ := by
  constructor
  · rcases recurse_fresh v1 v2 v3 with ⟨m0, m1, e0, e1, inv1, s1⟩
    refine ⟨m0, m1, _, e0, e1, ?_, ?_⟩
    · intro a b c ha hb hc
      rcases recurse_spec3 v1 v2 v3 (a + b + c + 1) a b c m1 inv1 ha hb hc (by omega) with
        ⟨m2, e, _⟩
      exact ⟨m2, e⟩
    · intro i j k hi1 hi hj1 hj hk1 hk
      rcases inv1.isSet_box v1 v2 v3 (le_refl _) (le_refl _) (le_refl _) s1 i j k
        hi1 hi hj1 hj hk1 hk with ⟨cell, hc, hd⟩
      rcases inv1.inner i j k cell hi1 hj1 hk1 hi hj hk hc with ⟨e, _⟩ | ⟨ed, et⟩
      · exact absurd e hd
      · rcases scanVal_spec (candidates v1 v2 v3 i j k) 0 INT_MAX (-1) with ⟨_, hmin, hcase⟩
        have hval := lev3_inner v1 v2 v3 i j k hi1 hj1 hk1
        have h0 : (candidates v1 v2 v3 i j k)[0]? = some (lev3 v1 v2 v3 (i - 1) j k + 1) := by
          simp [candidates]
        have hb0 := lev3_le_sum v1 v2 v3 (i - 1 + j + k) (i - 1) j k (le_refl _)
        rcases hcase with ⟨_, hall⟩ | ⟨q, hq, ht, hlater⟩
        · have := hall 0 _ h0
          omega
        · have hq7 : q < 7 := by
            rcases List.getElem?_eq_some.1 hq with ⟨h, _⟩
            simpa [candidates] using h
          refine ⟨cell, q, hc, ?_, hq7, ?_, ?_, ?_⟩
          · rw [et]; unfold trace3; rw [ht]; simp
          · rw [ed, hval]; exact hq
          · intro q1 d h; rw [ed, hval]; exact hmin q1 d h
          · intro q1 d hlt h; rw [ed, hval]; exact hlater q1 d hlt h
  · decide!

/-- C16, an instance of the theorem: three sequences of length 1. -/
theorem tie_break_highest_index_witness :
    (("a".toList.length : Int) + ("b".toList.length : Int) + ("c".toList.length : Int) ≤ INT_MAX) ∧
    ((∃ m0 m1 d, prepare fresh "a".toList.length "b".toList.length "c".toList.length = some m0 ∧
      recurse "a".toList "b".toList "c".toList ("a".toList.length + "b".toList.length + "c".toList.length + 1)
        "a".toList.length "b".toList.length "c".toList.length m0 = some (d, m1) ∧
      (∀ a b c, a ≤ "a".toList.length → b ≤ "b".toList.length → c ≤ "c".toList.length →
        ∃ m2, recurse "a".toList "b".toList "c".toList (a + b + c + 1) a b c m1 = some (lev3 "a".toList "b".toList "c".toList a b c, m2)) ∧
      ∀ i j k, 1 ≤ i → i ≤ "a".toList.length → 1 ≤ j → j ≤ "b".toList.length → 1 ≤ k → k ≤ "c".toList.length →
        ∃ (cell : Tuple) (t : Nat), getCell m1 i j k = some cell ∧
          cell.trace = (t : Int) ∧ t < 7 ∧
          (candidates "a".toList "b".toList "c".toList i j k)[t]? = some cell.distance ∧
          (∀ (q : Nat) (d : Int), (candidates "a".toList "b".toList "c".toList i j k)[q]? = some d →
            cell.distance ≤ d) ∧
          (∀ (q : Nat) (d : Int), t < q → (candidates "a".toList "b".toList "c".toList i j k)[q]? = some d →
            cell.distance < d)) ∧
    cellAfterRecurse "a".toList "b".toList "c".toList 1 1 1 = some ⟨3, 5⟩) :=
  ⟨by decide, tie_break_highest_index "a".toList "b".toList "c".toList (by decide)⟩

/-- C17. On the table of a fresh instance a call `recurse(i, j, k)` with at
least one of `i`, `j`, `k` equal to 0 returns `i + j + k`, whatever the
sequences hold: that is `j + k` when `i = 0`, `i + k` when `j = 0` and `i + j`
when `k = 0`. The same value is returned on the table left by
`recurse(len1, len2, len3)`. -/
theorem recurse_base {α : Type} [DecidableEq α] (v1 v2 v3 : List α) (i j k fuel : Nat)
    (hi : i ≤ v1.length) (hj : j ≤ v2.length) (hk : k ≤ v3.length)
    (h0 : i = 0 ∨ j = 0 ∨ k = 0) :
    ∃ (m0 m1 m2 m3 : Array3D) (d0 d : Int),
      prepare fresh v1.length v2.length v3.length = some m0 ∧
      recurse v1 v2 v3 (fuel + 1) i j k m0 = some (d, m1) ∧
      d = (i : Int) + (j : Int) + (k : Int) ∧
      (i = 0 → d = (j : Int) + (k : Int)) ∧
      (j = 0 → d = (i : Int) + (k : Int)) ∧
      (k = 0 → d = (i : Int) + (j : Int)) ∧
      recurse v1 v2 v3 (v1.length + v2.length + v3.length + 1)
        v1.length v2.length v3.length m0 = some (d0, m2) ∧
      recurse v1 v2 v3 (i + j + k + 1) i j k m2 = some (d, m3) := by
  rcases prepare_fresh_inv3 v1 v2 v3 with ⟨m0, e0, inv0, g0⟩
  rcases recurse_spec3 v1 v2 v3 (v1.length + v2.length + v3.length + 1)
    v1.length v2.length v3.length m0 inv0 (le_refl _) (le_refl _) (le_refl _) (by omega) with
    ⟨m2, e2, inv2, _, _⟩
  rcases recurse_spec3 v1 v2 v3 (i + j + k + 1) i j k m2 inv2 hi hj hk (by omega) with
    ⟨m3, e3, _⟩
  rw [lev3_face v1 v2 v3 i j k h0] at e3
  have hc : getCell m0 i j k = some ⟨-1, axisTrace i j k⟩ := by
    rw [g0, if_pos ⟨hi, hj, hk⟩]
  have hval : (if k = 0 then (i : Int) + (j : Int)
      else if j = 0 then (i : Int) + (k : Int)
      else if i = 0 then (j : Int) + (k : Int) else -1) =
      (i : Int) + (j : Int) + (k : Int) := by
    split_ifs <;> omega
  have e1 : recurse v1 v2 v3 (fuel + 1) i j k m0 =
      some ((i : Int) + (j : Int) + (k : Int),
        writeCell m0 i j k (fun t => { t with distance := (i : Int) + (j : Int) + (k : Int) })) := by
    rw [recurse]
    simp only [hc]
    rw [if_neg (by simp), if_pos ((min3_eq_zero_iff i j k).2 h0)]
    simp only [hval]
  exact ⟨m0, _, m2, m3, _, _, e0, e1, rfl, fun h => by omega, fun h => by omega,
    fun h => by omega, e2, e3⟩

/-- C17, an instance of the theorem: the cell `(1, 1, 0)` for `"ab"`, `"c"`, `""`. -/
theorem recurse_base_witness :
    (1 ≤ "ab".toList.length ∧ 1 ≤ "c".toList.length ∧ 0 ≤ "".toList.length ∧ (1 = 0 ∨ 1 = 0 ∨ 0 = 0)) ∧
    (∃ (m0 m1 m2 m3 : Array3D) (d0 d : Int),
      prepare fresh "ab".toList.length "c".toList.length "".toList.length = some m0 ∧
      recurse "ab".toList "c".toList "".toList (0 + 1) 1 1 0 m0 = some (d, m1) ∧
      d = (1 : Int) + (1 : Int) + (0 : Int) ∧
      (1 = 0 → d = (1 : Int) + (0 : Int)) ∧
      (1 = 0 → d = (1 : Int) + (0 : Int)) ∧
      (0 = 0 → d = (1 : Int) + (1 : Int)) ∧
      recurse "ab".toList "c".toList "".toList ("ab".toList.length + "c".toList.length + "".toList.length + 1)
        "ab".toList.length "c".toList.length "".toList.length m0 = some (d0, m2) ∧
      recurse "ab".toList "c".toList "".toList (1 + 1 + 0 + 1) 1 1 0 m2 = some (d, m3)) :=
  ⟨⟨by decide, by decide, by decide, by decide⟩,
    recurse_base "ab".toList "c".toList "".toList 1 1 0 0 (by decide) (by decide) (by decide)
      (by decide)⟩

/-- C14. For every sequence `C` of length `n`, `ComputeMinEdit("", "", C)` on a
fresh instance computes distance `n` and yields `align1 = align2 = n` gaps and
`align3 = [0, 1, ..., n - 1]`; with three empty inputs the three rows are empty. -/
theorem two_empty_inputs {α : Type} [DecidableEq α] (C : List α) :
    distance ([] : List α) [] C = some (C.length : Int) ∧
    (∃ s, ComputeMinEdit fresh ([] : List α) [] C = some s ∧
      s.align1 = List.replicate C.length (-1) ∧
      s.align2 = List.replicate C.length (-1) ∧
      s.align3 = (List.range C.length).map Int.ofNat) ∧
    (∃ s, ComputeMinEdit fresh ([] : List α) [] [] = some s ∧
      s.align1 = [] ∧ s.align2 = [] ∧ s.align3 = []) := by
  have main : ∀ D : List α, distance ([] : List α) [] D = some (D.length : Int) ∧
      ∃ s, ComputeMinEdit fresh ([] : List α) [] D = some s ∧
        s.align1 = List.replicate D.length (-1) ∧
        s.align2 = List.replicate D.length (-1) ∧
        s.align3 = (List.range D.length).map Int.ofNat := by
    intro D
    rcases recurse_fresh ([] : List α) [] D with ⟨m0, m1, e0, e1, inv1, _⟩
    have hl : lev3 ([] : List α) [] D 0 0 D.length = (D.length : Int) := by
      rw [lev3_face _ _ _ 0 0 D.length (Or.inl rfl)]; simp
    simp only [List.length_nil] at e0 e1
    rw [hl] at e1
    constructor
    · unfold distance
      simp only [List.length_nil, e0, e1, Option.map_some']
    · have hb := backtrace_axis3 ([] : List α) [] D inv1 (0 + 0 + D.length) D.length [] [] []
        (le_refl _) (by omega)
      simp only [List.nil_append] at hb
      refine ⟨⟨(List.replicate D.length (-1)).reverse, (List.replicate D.length (-1)).reverse,
        (((List.range D.length).map Int.ofNat).reverse).reverse, m1⟩, ?_, ?_, ?_, ?_⟩
      · unfold ComputeMinEdit
        simp only [List.length_nil, e0, e1, Nat.cast_zero]
        have ef : fresh.align1 = [] ∧ fresh.align2 = [] ∧ fresh.align3 = [] := ⟨rfl, rfl, rfl⟩
        rw [ef.1, ef.2.1, ef.2.2, hb]
      · simp
      · simp
      · simp
  refine ⟨(main C).1, (main C).2, ?_⟩
  rcases (main []).2 with ⟨s, hs, h1, h2, h3⟩
  exact ⟨s, hs, by simpa using h1, by simpa using h2, by simpa using h3⟩

/-- C18. Whenever `ComputeMinEdit` on a fresh instance returns (the back trace
completes and reads only trace codes `0..6`), the three output rows have the
same length; deleting the gaps `-1` from `align1`, `align2`, `align3` leaves
`0..len1-1`, `0..len2-1`, `0..len3-1`; and replaying each row gives back its
input sequence. -/
theorem ComputeMinEdit_valid {α : Type} [DecidableEq α] (v1 v2 v3 : List α)
    (s : Levenshtein3D) (h : ComputeMinEdit fresh v1 v2 v3 = some s) :
    s.align1.length = s.align2.length ∧ s.align2.length = s.align3.length ∧
    s.align1.filter (fun x => decide (x ≠ -1)) = (List.range v1.length).map Int.ofNat ∧
    s.align2.filter (fun x => decide (x ≠ -1)) = (List.range v2.length).map Int.ofNat ∧
    s.align3.filter (fun x => decide (x ≠ -1)) = (List.range v3.length).map Int.ofNat ∧
    s.align1.filterMap (intIndex v1) = v1 ∧
    s.align2.filterMap (intIndex v2) = v2 ∧
    s.align3.filterMap (intIndex v3) = v3 := by
  rcases recurse_fresh v1 v2 v3 with ⟨m0, m1, e0, e1, inv1, _⟩
  unfold ComputeMinEdit at h
  simp only [e0, e1] at h
  have ef : fresh.align1 = [] ∧ fresh.align2 = [] ∧ fresh.align3 = [] := ⟨rfl, rfl, rfl⟩
  rw [ef.1, ef.2.1, ef.2.2] at h
  cases hb : backtrace m1 (v1.length + v2.length + v3.length) (v1.length : Int)
      (v2.length : Int) (v3.length : Int) [] [] [] with
  | none => simp [hb] at h
  | some r =>
    rcases backtrace_valid v1 v2 v3 inv1 _ _ _ _ [] [] [] r (le_refl _) (le_refl _) (le_refl _)
      hb with ⟨p1, p2, p3, er, l12, l23, o1, o2, o3⟩
    simp only [List.nil_append] at er
    subst er
    simp only [hb, Option.some.injEq] at h
    subst h
    refine ⟨by simp [l12], by simp [l23], (o1.forward v1).1, (o2.forward v2).1,
      (o3.forward v3).1, (o1.forward v1).2, (o2.forward v2).2, (o3.forward v3).2⟩

/-- C18, an instance of the theorem: the three sequences `"abc"`, `"xbc"`, `"ayc"`. -/
theorem ComputeMinEdit_valid_witness :
    ∃ s, ComputeMinEdit fresh "abc".toList "xbc".toList "ayc".toList = some s ∧
      (s.align1.length = s.align2.length ∧ s.align2.length = s.align3.length ∧
      s.align1.filter (fun x => decide (x ≠ -1)) = (List.range "abc".toList.length).map Int.ofNat ∧
      s.align2.filter (fun x => decide (x ≠ -1)) = (List.range "xbc".toList.length).map Int.ofNat ∧
      s.align3.filter (fun x => decide (x ≠ -1)) = (List.range "ayc".toList.length).map Int.ofNat ∧
      s.align1.filterMap (intIndex "abc".toList) = "abc".toList ∧
      s.align2.filterMap (intIndex "xbc".toList) = "xbc".toList ∧
      s.align3.filterMap (intIndex "ayc".toList) = "ayc".toList) := by
  have hs : (ComputeMinEdit fresh "abc".toList "xbc".toList "ayc".toList).isSome = true := by
    decide!
  rcases Option.isSome_iff_exists.1 hs with ⟨s, e⟩
  exact ⟨s, e, ComputeMinEdit_valid "abc".toList "xbc".toList "ayc".toList s e⟩

end Levenshtein3D
